import Mathlib

/-!
Verification development for the crime-ipc-app client core.

This file shallowly embeds the core request/response pipeline of the
mobile client found in src/app/(tabs)/index.tsx (the feature-complete
screen variant: role + audience + cache + prefetch + structuring):

  - buildCacheKey            (cache identity of a request)
  - stripIpcMentions         (response sanitizer)
  - focusAnalysisResult      (per-analysis-type narrowing of the reply)
  - buildStructuredResult    (structuring pipeline for display)
  - fetchAnalysis            (request coordinator: cache, in-flight
                              registry, settlement of the network call)
  - getIpcSections           (analyze entry point)

Strings are modelled as lists of characters; the regular-expression
operations of the source are implemented as explicit scanners with the
exact matching semantics of the JavaScript patterns used (word
boundaries over the ASCII word class, greedy repetition, global
replacement resuming after each match).  Character classes such as the
whitespace class are taken over their ASCII fragment, which is the
repertoire the application exchanges with its backend.
-/

namespace CrimeIpcApp

/-- ASCII word character, the class underlying the JavaScript word
boundary assertion: letters, digits and underscore. -/
def isWordChar (c : Char) : Bool :=
  (('a' ≤ c && c ≤ 'z') || ('A' ≤ c && c ≤ 'Z') || ('0' ≤ c && c ≤ '9') || c = '_')

/-- The bracket class of the identifier patterns in the source,
written there as 0-9A-Za-z./()- . -/
def isClassChar (c : Char) : Bool :=
  (('a' ≤ c && c ≤ 'z') || ('A' ≤ c && c ≤ 'Z') || ('0' ≤ c && c ≤ '9')
    || c = '.' || c = '/' || c = '(' || c = ')' || c = '-')

/-- ASCII fragment of the JavaScript whitespace class. -/
def isWsChar (c : Char) : Bool :=
  (c = ' ' || c = '\t' || c = '\n' || c = '\r' || c = Char.ofNat 11 || c = Char.ofNat 12)

/-- Space or horizontal tab, the class of the run-collapsing step of the
sanitizer. -/
def isSpaceTab (c : Char) : Bool :=
  (c = ' ' || c = '\t')

/-- Lower-cased character, as the source case-insensitive matching and
toLowerCase produce on the ASCII repertoire. -/
def lowerChar (c : Char) : Char := Char.toLower c

/-- Case-insensitive character comparison. -/
def eqCI (a b : Char) : Bool := lowerChar a = lowerChar b

/-- Word status of an optional preceding character; the start of the
string counts as a non-word context. -/
def isWordO : Option Char → Bool
  | none => false
  | some c => isWordChar c

/-- Case-insensitive test for the three characters of the token IPC,
spelled out over the two spellings of each letter. -/
def isIpc3 (a b c : Char) : Bool :=
  ((a = 'i' || a = 'I') && (b = 'p' || b = 'P') && (c = 'c' || c = 'C'))

/-- First character of a list is a word character. -/
def headWord : List Char → Bool
  | [] => false
  | c :: _ => isWordChar c

/-- Lower-cased list of characters. -/
def lowerL (l : List Char) : List Char := l.map lowerChar

/-- Leading whitespace removed, as the first half of trim. -/
def trimLeadL (l : List Char) : List Char := l.dropWhile isWsChar

/-- Trailing whitespace removed. -/
def trimTrailL (l : List Char) : List Char := (l.reverse.dropWhile isWsChar).reverse

/-- The trim operation on character lists: both ends stripped of
whitespace, as the source trim calls over the ASCII repertoire. -/
def trimL (l : List Char) : List Char := trimTrailL (trimLeadL l)

/-- trim of a string. -/
def strTrim (s : String) : String := ⟨trimL s.data⟩

/-- Case-insensitive literal match of a pattern at the head of the
text; returns the remainder after the pattern when it matches. -/
def matchLitCI : List Char → List Char → Option (List Char)
  | [], l => some l
  | _ :: _, [] => none
  | p :: ps, c :: cs => if eqCI p c then matchLitCI ps cs else none

/-- Prefix test for character lists. -/
def startsWithL : List Char → List Char → Bool
  | [], _ => true
  | _ :: _, [] => false
  | p :: ps, c :: cs => if p = c then startsWithL ps cs else false

/-- Substring test for character lists (used for the includes calls of
the source, which are case-sensitive on already lower-cased text). -/
def containsL (pat : List Char) : List Char → Bool
  | [] => startsWithL pat []
  | c :: cs => startsWithL pat (c :: cs) || containsL pat cs

/-- Splits a character list at the newline character, as the split
calls of the source. -/
def splitNlL : List Char → List (List Char)
  | [] => [[]]
  | c :: cs =>
    let r := splitNlL cs
    if c = '\n' then [] :: r
    else
      match r with
      | [] => [[c]]
      | h :: t => (c :: h) :: t

/-- Interleaves the newline character between the lines, as the join
calls of the source. -/
def joinNlL : List (List Char) → List Char
  | [] => []
  | [l] => l
  | l :: ls => l ++ '\n' :: joinNlL ls

/-!
## The response sanitizer stripIpcMentions

The source applies six global regex replacements followed by a trim:

  1. remove parentheticals whose content mentions the bare token IPC;
  2. remove IPC Section followed by an identifier;
  3. remove IPC followed by an identifier;
  4. remove the bare token IPC;
  5. collapse runs of two or more spaces and tabs to one space;
  6. collapse runs of three or more newlines to exactly two;
  7. trim.

Each replacement is modelled by a matcher (what a match at the current
position consumes and emits) run by a generic left-to-right scanner.
The scanner carries the previous character of the original text so that
word-boundary assertions are evaluated exactly as the regex engine
does, and uses the remaining length as structural fuel.
-/

/-- A matcher result: the characters the replacement emits, the last
character of the consumed match (the boundary context for the next
match attempt), and the remaining text after the match. -/
abbrev MatchRes := List Char × Char × List Char

/-- Generic global-replacement scanner.  At each position the matcher
is consulted; on a match its emission is copied to the output and
scanning resumes after the consumed text, otherwise the current
character is copied.  The previous character of the original text is
threaded through for boundary tests. -/
def scanRF (m : Option Char → List Char → Option MatchRes) :
    Nat → Option Char → List Char → List Char
  | 0, _, l => l
  | _ + 1, _, [] => []
  | fuel + 1, p, c :: cs =>
    match m p (c :: cs) with
    | some (out, lc, rest) => out ++ scanRF m fuel (some lc) rest
    | none => c :: scanRF m fuel (some c) cs

/-- Runs a scanner with enough fuel for the whole text. -/
def runScan (m : Option Char → List Char → Option MatchRes)
    (p : Option Char) (l : List Char) : List Char :=
  scanRF m l.length p l

/-- Bounded occurrence of the token IPC inside a parenthetical content:
the context before the content is the opening parenthesis, and the end
of the content is followed by the closing parenthesis, so both ends of
the content count as non-word context. -/
def hasBddIpc : Char → List Char → Bool
  | p, a :: b :: c :: rest =>
    (!isWordChar p && isIpc3 a b c && !headWord rest) || hasBddIpc a (b :: c :: rest)
  | _, _ => false

/-- A character that is not a parenthesis, the content class of the
parenthetical pattern. -/
def notParen (c : Char) : Bool := !(c = '(' || c = ')')

/-- Matcher of stage 1: a parenthetical whose content, free of nested
parentheses, mentions the bare token IPC. -/
def ipcParenM (_ : Option Char) : List Char → Option MatchRes
  | [] => none
  | c0 :: r =>
    if c0 = '(' then
      match r.dropWhile notParen with
      | [] => none
      | c1 :: rest =>
        if c1 = ')' then
          if hasBddIpc '(' (r.takeWhile notParen) then some ([], ')', rest) else none
        else none
    else none

/-- Matcher of stage 2: the token IPC at a word boundary, optional
whitespace, the word Section, optional whitespace and a non-empty run
of identifier characters. -/
def ipcSectionM (p : Option Char) : List Char → Option MatchRes
  | a :: b :: c :: rest =>
    if !isWordO p && isIpc3 a b c then
      match matchLitCI ['s','e','c','t','i','o','n'] (rest.dropWhile isWsChar) with
      | some r2 =>
        let r3 := r2.dropWhile isWsChar
        match (r3.takeWhile isClassChar).getLast? with
        | some lc => some ([], lc, r3.dropWhile isClassChar)
        | none => none
      | none => none
    else none
  | _ => none

/-- Matcher of stage 3: the token IPC at a word boundary, optional
whitespace and a non-empty run of identifier characters. -/
def ipcIdM (p : Option Char) : List Char → Option MatchRes
  | a :: b :: c :: rest =>
    if !isWordO p && isIpc3 a b c then
      let r1 := rest.dropWhile isWsChar
      match (r1.takeWhile isClassChar).getLast? with
      | some lc => some ([], lc, r1.dropWhile isClassChar)
      | none => none
    else none
  | _ => none

/-- Matcher of stage 4: the bare token IPC between word boundaries. -/
def ipcBareM (p : Option Char) : List Char → Option MatchRes
  | a :: b :: c :: rest =>
    if !isWordO p && isIpc3 a b c && !headWord rest then some ([], c, rest) else none
  | _ => none

/-- Matcher of stage 5: a run of two or more spaces and tabs, replaced
by one space. -/
def spaceRunM (_ : Option Char) : List Char → Option MatchRes
  | a :: b :: rest =>
    if isSpaceTab a && isSpaceTab b then
      some ([' '], ' ', rest.dropWhile isSpaceTab)
    else none
  | _ => none

/-- Matcher of stage 6: a run of three or more newlines, replaced by
exactly two. -/
def nlRunM (_ : Option Char) : List Char → Option MatchRes
  | a :: b :: c :: rest =>
    if a = '\n' && b = '\n' && c = '\n' then
      some (['\n', '\n'], '\n', rest.dropWhile (· = '\n'))
    else none
  | _ => none

/-- The response sanitizer on character lists: the six replacement
stages of the source in order, then trim. -/
def stripIpcMentionsL (l : List Char) : List Char :=
  trimL (runScan nlRunM none (runScan spaceRunM none (runScan ipcBareM none
    (runScan ipcIdM none (runScan ipcSectionM none (runScan ipcParenM none l))))))

/-- The response sanitizer stripIpcMentions of the source. -/
def stripIpcMentions (s : String) : String := ⟨stripIpcMentionsL s.data⟩

/-!
## Data model: roles, audiences and analysis types
-/

/-- The role selector of a scenario: the user is the affected party or
a witness. -/
inductive Role
  | self
  | witness
deriving DecidableEq, Repr

/-- The audience mode; the feature-complete screen variant fixes it to
general. -/
inductive Audience
  | general
deriving DecidableEq, Repr

/-- The three analysis types the user can request. -/
inductive AnalysisType
  | sections
  | punishments
  | next_steps
deriving DecidableEq, Repr

/-!
## focusAnalysisResult

The per-analysis-type narrowing applied to the sanitized reply before
it is cached: the reply is cut down to the heading block of the
requested analysis type when one is recognized, otherwise filtered by
keyword heuristics, otherwise returned whole.
-/

/-- Carriage-return/newline pairs normalized to newlines. -/
def replaceCRLF : List Char → List Char
  | '\r' :: '\n' :: rest => '\n' :: replaceCRLF rest
  | c :: rest => c :: replaceCRLF rest
  | [] => []

/-- First character is whitespace. -/
def headWs : List Char → Bool
  | [] => false
  | c :: _ => isWsChar c

/-- First character is an identifier-class character. -/
def headClass : List Char → Bool
  | [] => false
  | c :: _ => isClassChar c

/-- Runs of whitespace collapsed to a single space, the global
whitespace-to-space replacement of the source heading normalizer. -/
def collapseWs : List Char → List Char
  | [] => []
  | a :: rest =>
    if isWsChar a then
      if headWs rest then collapseWs rest else ' ' :: collapseWs rest
    else a :: collapseWs rest

/-- The punctuation class the heading normalizer blanks out. -/
def headingPunct (c : Char) : Bool :=
  (c = '`' || c = '*' || c = '_' || c = '>' || c = '#' || c = '-')

/-- The headingOf normalizer of the source: lower-case, blank out
heading punctuation and colons, collapse whitespace, trim. -/
def headingOfL (l : List Char) : List Char :=
  trimL (collapseWs (((lowerL l).map fun c => if headingPunct c then ' ' else c).map
    fun c => if c = ':' then ' ' else c))

/-- A line matches a heading key set when its normalized form contains
one of the keys, as the isHeadingMatch helper of the source. -/
def isHeadingMatch (keys : List (List Char)) (line : List Char) : Bool :=
  keys.any fun k => containsL k (headingOfL line)

/-- Case-insensitive test for one of a list of keywords, each required
to sit between word boundaries, as the alternation patterns of the
source. -/
def testBddKws (kws : List (List Char)) : Option Char → List Char → Bool
  | _, [] => false
  | p, c :: cs =>
    (!isWordO p && kws.any fun w =>
      match matchLitCI w (c :: cs) with
      | some rest => !headWord rest
      | none => false)
    || testBddKws kws (some c) cs

/-- Top-level keyword test starting at the beginning of the text. -/
def testKws (kws : List (List Char)) (l : List Char) : Bool := testBddKws kws none l

/-- Test for a section reference: the word section at a word boundary,
optional whitespace and at least one identifier character. -/
def testSectionRef : Option Char → List Char → Bool
  | _, [] => false
  | p, c :: cs =>
    (!isWordO p &&
      (match matchLitCI ['s','e','c','t','i','o','n'] (c :: cs) with
       | some rest => headClass (rest.dropWhile isWsChar)
       | none => false))
    || testSectionRef (some c) cs

/-- Section-reference test starting at the beginning of the text. -/
def testSectionRefL (l : List Char) : Bool := testSectionRef none l

/-- The section heading keys of focusAnalysisResult. -/
def sectionHeadings : List (List Char) :=
  ["relevant bns sections", "bns sections", "relevant sections",
   "applicable sections"].map String.data

/-- The punishment heading keys of focusAnalysisResult. -/
def punishmentHeadings : List (List Char) :=
  ["likely punishments", "punishments", "punishment",
   "sentencing exposure", "sentencing"].map String.data

/-- The next-step heading keys of focusAnalysisResult. -/
def nextStepHeadings : List (List Char) :=
  ["immediate actions", "what to do next", "next steps",
   "steps after the incident", "steps after incident",
   "post-incident steps", "post incident steps",
   "safety/legality caveats", "safety caveats"].map String.data

/-- The keyword set excluded from the sections fallback filter. -/
def sectionExclKws : List (List Char) :=
  ["punishment", "sentencing", "imprisonment", "jail", "fine",
   "immediate", "next steps", "next step", "what to do"].map String.data

/-- The keyword set of the punishments fallback filter. -/
def punishmentFocusKws : List (List Char) :=
  ["punishment", "sentencing", "imprisonment", "jail", "fine", "saza"].map String.data

/-- The keyword set of the next-steps fallback filter. -/
def nextStepFocusKws : List (List Char) :=
  ["immediate", "next steps", "next step", "what to do", "report",
   "police", "fir", "evidence", "witness", "safety",
   "after the incident"].map String.data

/-- Index of the first line matching a heading key set. -/
def findFirstHeadingIndex (lines : List (List Char)) (keys : List (List Char)) :
    Option Nat :=
  lines.findIdx? (isHeadingMatch keys)

/-- The heading block extractor: from the first line matching a start
key up to, excluding, the next line matching a stop key; joined and
trimmed; empty when no start heading is found. -/
def extractHeadingBlock (lines : List (List Char))
    (startKeys stopKeys : List (List Char)) : List Char :=
  match findFirstHeadingIndex lines startKeys with
  | none => []
  | some start =>
    let stop :=
      match (lines.drop (start + 1)).findIdx? (isHeadingMatch stopKeys) with
      | some j => start + 1 + j
      | none => lines.length
    trimL (joinNlL ((lines.drop start).take (stop - start)))

/-- The focusAnalysisResult narrowing of the source on character
lists. -/
def focusAnalysisResultL (text : List Char) (analysisType : AnalysisType) :
    List Char :=
  let normalized := trimL (replaceCRLF text)
  if normalized = [] then normalized
  else
    let lines := splitNlL normalized
    match analysisType with
    | .sections =>
      let fromHeadings :=
        extractHeadingBlock lines sectionHeadings (punishmentHeadings ++ nextStepHeadings)
      if fromHeadings ≠ [] then fromHeadings
      else
        let fallback := lines.filter fun line =>
          testSectionRefL line && !testKws sectionExclKws line
        if fallback ≠ [] then trimL (joinNlL fallback) else normalized
    | .punishments =>
      let fromHeadings := extractHeadingBlock lines punishmentHeadings nextStepHeadings
      if fromHeadings ≠ [] then fromHeadings
      else
        let fallback := lines.filter (testKws punishmentFocusKws)
        if fallback ≠ [] then trimL (joinNlL fallback) else normalized
    | .next_steps =>
      match findFirstHeadingIndex lines nextStepHeadings with
      | some i => trimL (joinNlL (lines.drop i))
      | none =>
        let fallback := lines.filter (testKws nextStepFocusKws)
        if fallback ≠ [] then trimL (joinNlL fallback) else normalized

/-- The focusAnalysisResult narrowing of the source. -/
def focusAnalysisResult (text : String) (analysisType : AnalysisType) : String :=
  ⟨focusAnalysisResultL text.data analysisType⟩

/-!
## buildStructuredResult

The structuring pipeline: lines are normalized and classified, section
entries parsed and merged, and the display items of the selected
analysis type assembled.
-/

/-- Decimal digit. -/
def isDigitChar (c : Char) : Bool := ('0' ≤ c && c ≤ '9')

/-- The characters of the leading-punctuation classes of the source
patterns over dash, colon and whitespace. -/
def dashColonWs (c : Char) : Bool := (isWsChar c || c = ':' || c = '-')

/-- The wider leading-punctuation class of cleanGeneralLine, which
also strips semicolons and commas. -/
def leadPunctWs (c : Char) : Bool :=
  (isWsChar c || c = ':' || c = ';' || c = ',' || c = '-')

/-- A leading bullet marker with surrounding whitespace removed, the
first anchored replacement of normalizeLine; the line is unchanged when
no bullet is present. -/
def stripBulletOnce (l : List Char) : List Char :=
  match l.dropWhile isWsChar with
  | b :: r => if b = '*' || b = '-' || b = '+' then r.dropWhile isWsChar else l
  | [] => l

/-- A leading list number such as 1. or 2) removed, the second anchored
replacement of normalizeLine. -/
def stripNumberOnce (l : List Char) : List Char :=
  let w := l.dropWhile isWsChar
  let digits := w.takeWhile isDigitChar
  if digits = [] then l
  else
    match w.drop digits.length with
    | '.' :: r => r.dropWhile isWsChar
    | ')' :: r => r.dropWhile isWsChar
    | _ => l

/-- One to six leading heading hashes removed, the third anchored
replacement of normalizeLine. -/
def stripHashOnce (l : List Char) : List Char :=
  let w := l.dropWhile isWsChar
  let h := w.takeWhile (· = '#')
  if h = [] then l
  else (w.drop (min 6 h.length)).dropWhile isWsChar

/-- All double-asterisk emphasis markers removed. -/
def removeDoubleStars : List Char → List Char
  | '*' :: '*' :: rest => removeDoubleStars rest
  | c :: rest => c :: removeDoubleStars rest
  | [] => []

/-- The normalizeLine helper of buildStructuredResult. -/
def normalizeLineL (l : List Char) : List Char :=
  trimL (collapseWs (removeDoubleStars (stripHashOnce (stripNumberOnce (stripBulletOnce l)))))

/-- Matcher for a bracketed tag with its leading whitespace, removed
globally by cleanGeneralLine. -/
def bracketM (_ : Option Char) (l : List Char) : Option MatchRes :=
  match l.dropWhile isWsChar with
  | '[' :: r2 =>
    match r2.dropWhile (· ≠ ']') with
    | ']' :: rest => some ([], ']', rest)
    | _ => none
  | _ => none

/-- Matcher for a parenthesized aside, removed globally by
cleanGeneralLine. -/
def parenRemM (_ : Option Char) : List Char → Option MatchRes
  | '(' :: r =>
    match r.dropWhile (· ≠ ')') with
    | ')' :: rest => some ([], ')', rest)
    | _ => none
  | _ => none

/-- Matcher replacing a case-insensitive literal phrase. -/
def litReplM (pat repl : List Char) (_ : Option Char) (l : List Char) :
    Option MatchRes :=
  match matchLitCI pat l with
  | some rest => some (repl, ' ', rest)
  | none => none

/-- Global case-insensitive literal replacement. -/
def replaceAllCI (pat repl : String) (l : List Char) : List Char :=
  runScan (litReplM pat.data repl.data) none l

/-- Devanagari character, the script range blanked by
cleanGeneralLine. -/
def isDevChar (c : Char) : Bool := (0x900 ≤ c.toNat && c.toNat ≤ 0x97F)

/-- Matcher replacing a run of Devanagari characters by one space. -/
def devRunM (_ : Option Char) : List Char → Option MatchRes
  | c :: rest =>
    if isDevChar c then some ([' '], c, rest.dropWhile isDevChar) else none
  | [] => none

/-- Matcher replacing a run of two or more whitespace characters by
one space. -/
def twoWsM (_ : Option Char) : List Char → Option MatchRes
  | a :: b :: rest =>
    if isWsChar a && isWsChar b then some ([' '], ' ', rest.dropWhile isWsChar)
    else none
  | _ => none

/-- The cleanGeneralLine helper of buildStructuredResult. -/
def cleanGeneralLineL (l : List Char) : List Char :=
  trimL (runScan twoWsM none
    ((runScan devRunM none
      (replaceAllCI "likely punishment" "sambhavit saza"
        (replaceAllCI "why it applies" "kyun lagu hota hai"
          (replaceAllCI "applies because" "kyunki"
            (runScan parenRemM none
              (runScan bracketM none l)))))).dropWhile leadPunctWs))

/-- The exact heading strings recognized by isHeadingLine. -/
def structHeadingKeys : List (List Char) :=
  ["relevant bns sections", "bns sections", "likely punishments",
   "punishments", "punishment", "immediate actions", "what to do next",
   "next steps", "steps after the incident", "steps after incident",
   "post incident steps", "safety legality caveats",
   "safety caveats"].map String.data

/-- The isHeadingLine classifier of buildStructuredResult. -/
def isHeadingLine (line : List Char) : Bool :=
  let h := headingOfL line
  startsWithL "crime scenario".data h || structHeadingKeys.contains h

/-- The de-duplication helper of buildStructuredResult: trims items,
drops blanks, and keeps the first occurrence under case-insensitive
comparison. -/
def uniqueItemsGo (seen : List (List Char)) : List (List Char) → List (List Char)
  | [] => []
  | item :: rest =>
    let t := trimL item
    if t = [] then uniqueItemsGo seen rest
    else
      let key := lowerL t
      if seen.contains key then uniqueItemsGo seen rest
      else t :: uniqueItemsGo (key :: seen) rest

/-- uniqueItems of the source. -/
def uniqueItems (items : List (List Char)) : List (List Char) := uniqueItemsGo [] items

/-- The connector words of the reason pattern. -/
def reasonKws : List (List Char) :=
  ["kyun", "kyunki", "isliye", "lagu hota hai", "because", "applies"].map String.data

/-- The keywords of the punishment pattern, with the optional plural
spelled out. -/
def punishmentKws : List (List Char) :=
  ["saza", "jail", "fine", "imprisonment", "years", "year"].map String.data

/-- The keywords of the action pattern of the next-steps branch. -/
def actionKws : List (List Char) :=
  ["police", "fir", "report", "evidence", "medical", "witness", "safety",
   "turant", "immediate", "step", "karein", "karna chahiye"].map String.data

/-- Index of the first position at which one of the keywords matches
between word boundaries, as the search method of the source. -/
def findBddKwsIdx (kws : List (List Char)) : Option Char → List Char → Option Nat
  | _, [] => none
  | p, c :: cs =>
    if !isWordO p && kws.any (fun w =>
        match matchLitCI w (c :: cs) with
        | some rest => !headWord rest
        | none => false) then
      some 0
    else (findBddKwsIdx kws (some c) cs).map (· + 1)

/-- First match of the un-anchored section pattern of the entry parser:
the literal word section, optional whitespace and a non-empty
identifier run, with no boundary requirements; returns the captured
identifier and the text after the match. -/
def execSectionGo : List Char → Option (List Char × List Char)
  | [] => none
  | c :: cs =>
    match matchLitCI ['s','e','c','t','i','o','n'] (c :: cs) with
    | some rest =>
      let r1 := rest.dropWhile isWsChar
      let run := r1.takeWhile isClassChar
      if run ≠ [] then some (run, r1.dropWhile isClassChar) else execSectionGo cs
    | none => execSectionGo cs

/-- Longest non-empty prefix of an identifier run, given in reverse,
that ends at a word boundary against the following character. -/
def bddSuffixSplit : List Char → Option Char → Option (List Char)
  | [], _ => none
  | x :: rest, next =>
    if isWordChar x != isWordO next then some (x :: rest).reverse
    else bddSuffixSplit rest (some x)

/-- First match of the bounded section pattern: word boundary, the word
section, optional whitespace and an identifier run ending at a word
boundary; returns the captured identifier. -/
def matchSectionBdd : Option Char → List Char → Option (List Char)
  | _, [] => none
  | p, c :: cs =>
    match
      (if !isWordO p then
        match matchLitCI ['s','e','c','t','i','o','n'] (c :: cs) with
        | some rest =>
          let r1 := rest.dropWhile isWsChar
          bddSuffixSplit (r1.takeWhile isClassChar).reverse
            (r1.dropWhile isClassChar).head?
        | none => none
      else none) with
    | some cap => some cap
    | none => matchSectionBdd (some c) cs

/-- A parsed section entry of buildStructuredResult. -/
structure SectionEntry where
  number : List Char
  title : List Char
  reason : List Char
  punishment : List Char
deriving DecidableEq, Repr

/-- The or-else of JavaScript on strings: the first operand unless it
is empty. -/
def jsOrL (a b : List Char) : List Char := if a = [] then b else a

/-- The per-line field extraction of parseSectionEntries: the text
after the section match is split into title and reason at the first
reason connector, and reclassified as a punishment when the remaining
title matches the punishment pattern.  Returns title, reason and
punishment. -/
def parseEntryFields (afterSection : List Char) : List Char × List Char × List Char :=
  let t0 := trimL (afterSection.dropWhile dashColonWs)
  let tr :=
    match findBddKwsIdx reasonKws none t0 with
    | some idx => (trimL (t0.take idx), trimL ((t0.drop idx).dropWhile dashColonWs))
    | none => (t0, [])
  if testKws punishmentKws tr.1 then ([], tr.2, tr.1) else (tr.1, tr.2, [])

/-- The entry-collection loop of parseSectionEntries, including the
consumption of a following continuation line supplying a missing
reason or punishment. -/
def parseEntriesGo : List (List Char) → List SectionEntry
  | [] => []
  | [line] =>
    match execSectionGo line with
    | none => []
    | some (number, afterSection) =>
      let f := parseEntryFields afterSection
      [⟨number, f.1, f.2.1, f.2.2⟩]
  | line :: next :: rest2 =>
    match execSectionGo line with
    | none => parseEntriesGo (next :: rest2)
    | some (number, afterSection) =>
      let f := parseEntryFields afterSection
      if (matchSectionBdd none next).isSome then
        ⟨number, f.1, f.2.1, f.2.2⟩ :: parseEntriesGo (next :: rest2)
      else if f.2.1 = [] && testKws reasonKws next then
        ⟨number, f.1, trimL (next.dropWhile dashColonWs), f.2.2⟩ :: parseEntriesGo rest2
      else if f.2.2 = [] && testKws punishmentKws next then
        ⟨number, f.1, f.2.1, trimL (next.dropWhile dashColonWs)⟩ :: parseEntriesGo rest2
      else ⟨number, f.1, f.2.1, f.2.2⟩ :: parseEntriesGo (next :: rest2)

/-- The merge of consecutive entries for the same section number,
preferring the first non-empty value of each field, in first-seen
order, as the insertion-ordered map of the source. -/
def mergeEntries (acc : List SectionEntry) : List SectionEntry → List SectionEntry
  | [] => acc
  | e :: rest =>
    if acc.any (fun x => x.number = e.number) then
      mergeEntries (acc.map fun x =>
        if x.number = e.number then
          ⟨x.number, jsOrL x.title e.title, jsOrL x.reason e.reason,
            jsOrL x.punishment e.punishment⟩
        else x) rest
    else mergeEntries (acc ++ [e]) rest

/-- parseSectionEntries of the source. -/
def parseSectionEntries (contentLines : List (List Char)) : List SectionEntry :=
  mergeEntries [] (parseEntriesGo contentLines)

/-- The anchored section-label strip of the punishments branch. -/
def stripSectionLead (l : List Char) : List Char :=
  match matchLitCI ['s','e','c','t','i','o','n'] l with
  | some rest =>
    let r1 := rest.dropWhile isWsChar
    let run := r1.takeWhile isClassChar
    if run = [] then l
    else
      let r2 := (r1.dropWhile isClassChar).dropWhile isWsChar
      let r3 :=
        match r2 with
        | ':' :: t => t
        | '-' :: t => t
        | _ => r2
      r3.dropWhile isWsChar
  | none => l

/-- The structured display result of the pipeline. -/
structure StructuredResult where
  title : String
  items : List String
deriving DecidableEq, Repr

/-- buildStructuredResult of the source, on character lists, returning
title and items. -/
def buildStructuredResultL (text : List Char) (analysisType : Option AnalysisType) :
    List Char × List (List Char) :=
  let normalizedText := trimL (replaceCRLF text)
  if normalizedText = [] then ("Analysis".data, [])
  else
    let lines := (splitNlL normalizedText |>.map normalizeLineL).filter (· ≠ [])
    let contentLines :=
      ((lines.filter fun l => !isHeadingLine l).map cleanGeneralLineL).filter (· ≠ [])
    let entries := parseSectionEntries contentLines
    match analysisType with
    | some .sections =>
      let items := (entries.take 6).flatMap fun e =>
        ["Section ".data ++ e.number ++ ": ".data ++
          jsOrL e.title "Relevant BNS section".data,
         "Kyun lagu hota hai: ".data ++
          jsOrL e.reason "Diye gaye facts ke basis par yeh section lagu hota hai.".data]
      ("BNS Sections + Kyun Lagu Hota Hai".data,
        if items = [] then ["Is scenario ke liye clear BNS section nahi mila.".data]
        else items)
    | some .punishments =>
      let itemsFromSections := entries.filterMap fun e =>
        let fromFind :=
          match contentLines.find? (fun line =>
            matchSectionBdd none line = some e.number && testKws punishmentKws line) with
          | some l => l
          | none => []
        let punish := jsOrL e.punishment fromFind
        if punish = [] then none
        else some ("Section ".data ++ e.number ++ ": ".data ++ stripSectionLead punish)
      let fallbackItems := (contentLines.filter (testKws punishmentKws)).take 8
      let items := uniqueItems
        (if itemsFromSections ≠ [] then itemsFromSections else fallbackItems)
      ("Sambhavit Saza".data,
        if items = [] then ["Is scenario ke liye clear saza details nahi mili.".data]
        else items)
    | some .next_steps =>
      let items := uniqueItems
        (((contentLines.filter (testKws actionKws)).take 8).map fun l =>
          trimL (l.dropWhile dashColonWs))
      ("Ab Kya Karein".data,
        if items = [] then ["Is scenario ke liye clear actionable steps nahi mile.".data]
        else items)
    | none =>
      ("Analysis".data, (uniqueItems contentLines).take 8)

/-- buildStructuredResult of the source. -/
def buildStructuredResult (text : String) (analysisType : Option AnalysisType) :
    StructuredResult :=
  let r := buildStructuredResultL text.data analysisType
  ⟨⟨r.1⟩, r.2.map String.mk⟩

/-!
## Cache key and prompt builders
-/

/-- The schema version tag of the cache key. -/
def OUTPUT_SCHEMA_VERSION : String := "v3"

/-- Wire string of a role. -/
def roleStr : Role → String
  | .self => "self"
  | .witness => "witness"

/-- Wire string of an audience mode. -/
def audienceStr : Audience → String
  | .general => "general"

/-- Wire string of an analysis type. -/
def analysisTypeStr : AnalysisType → String
  | .sections => "sections"
  | .punishments => "punishments"
  | .next_steps => "next_steps"

/-- Lower-cased string, as toLowerCase on the ASCII repertoire. -/
def lowerStr (s : String) : String := ⟨lowerL s.data⟩

/-- buildCacheKey of the source: schema version, audience, role,
analysis type and the case-folded scenario text, joined by a fixed
delimiter. -/
def buildCacheKey (role : Role) (audience : Audience)
    (analysisType : AnalysisType) (normalizedInput : String) : String :=
  OUTPUT_SCHEMA_VERSION ++ "::" ++ audienceStr audience ++ "::" ++ roleStr role ++
    "::" ++ analysisTypeStr analysisType ++ "::" ++ lowerStr normalizedInput

/-- The role-context sentence of buildScenarioPrompt. -/
def roleContext : Role → String
  | .self => "Context: This incident is happening to the user or directly affecting them."
  | .witness => "Context: The user is only a witness/bystander, and the incident is not directly affecting them."

/-- The audience-context sentence of buildScenarioPrompt. -/
def audienceContext : String :=
  "Audience: General public. Respond in very simple Hinglish (Roman script), avoid legal jargon, and keep wording easy to understand."

/-- buildScenarioPrompt of the source: the scenario, the role and
audience context sentences and the task-specific instruction template
of the analysis type. -/
def buildScenarioPrompt (role : Role) (_ : Audience)
    (analysisType : AnalysisType) (normalizedInput : String) : String :=
  if analysisType = .sections then
    normalizedInput ++ "\n\n" ++ roleContext role ++ "\n" ++ audienceContext ++
      "\nStrictly use simple Hinglish (Roman Hindi). English sentences mat likho; sirf legal terms jaise BNS/Section/FIR allowed hain.\n\nOutput format:\n* Section <number>: <short section title in Hinglish>\n- Kyun lagu hota hai: <ek line, simple Hinglish>\n\nRules:\n1) Sirf BNS sections + why applicable.\n2) Punishment, safety advice, ya next steps mat do.\n3) Do not mention IPC."
  else if analysisType = .punishments then
    normalizedInput ++ "\n\n" ++ roleContext role ++ "\n" ++ audienceContext ++
      "\nStrictly use simple Hinglish (Roman Hindi). English sentences mat likho; sirf legal terms jaise BNS/Section/FIR allowed hain. Do not mention IPC.\n\nStrict output format (repeat this 3-line block for each section):\n* Section <number>: <section title in Hinglish>\n- Kyun lagu hota hai: <one short reason in Hinglish>\n- Sambhavit saza: <jail/fine range in simple Hinglish>\n\nRules:\n1) No extra headings.\n2) No legal disclaimer.\n3) No extra bullet types.\n4) Keep it short and practical.\n5) If multiple sections apply, separate each 3-line block with one blank line."
  else if role = .self then
    normalizedInput ++ "\n\n" ++ roleContext role ++ "\n" ++ audienceContext ++
      "\nStrictly use simple Hinglish (Roman Hindi). English sentences mat likho; sirf legal terms jaise BNS/Section/FIR allowed hain.\nFocus only on what the user should do next: (1) immediate actions during the incident, and (2) actions after the incident. Keep it practical and safety-first. Do not mention IPC."
  else
    normalizedInput ++ "\n\n" ++ roleContext role ++ "\n" ++ audienceContext ++
      "\nStrictly use simple Hinglish (Roman Hindi). English sentences mat likho; sirf legal terms jaise BNS/Section/FIR allowed hain.\nFocus only on what a witness should do next: (1) immediate safe actions during the incident, and (2) actions after the incident including reporting, preserving evidence, and giving witness statement. Keep it practical and safety-first. Do not mention IPC."

/-- The deployed analyze endpoint, the default of the environment
selection of the source. -/
def analyzeEndpointDefault : String := "https://ipc-backend-j3ux.onrender.com/analyze"

/-!
## The request coordinator

fetchAnalysis is asynchronous in the source; its observable behavior
factors into a synchronous entry step (cache lookup, in-flight join,
or issuing a new network call and registering it) and a settlement
step (the promise body running once the transport settles, followed by
the in-flight removal of the finally handler).  Both steps are pure
transformers of a coordinator state holding the two process-lifetime
maps plus a log of issued network calls.
-/

/-- The coordinator state: the response cache, the in-flight registry
keyed by cache key and holding the identity of the pending promise, a
counter supplying fresh promise identities, and the log of keys for
which a network call was issued. -/
structure CoordState where
  cache : String → Option String
  inFlight : String → Option Nat
  nextId : Nat
  networkCalls : List String

/-- What a caller of fetchAnalysis observes on entry: a cached value, a
join of the pending promise of an identical in-flight request, or the
start of a new network call. -/
inductive FetchOutcome
  | cachedHit (v : String)
  | joined (pid : Nat)
  | started (pid : Nat)
deriving DecidableEq, Repr

/-- The entry step past the cache test: join an in-flight promise for
the key, else issue one network call and register its promise. -/
def fetchAnalysisMiss (st : CoordState) (cacheKey : String) :
    FetchOutcome × CoordState :=
  match st.inFlight cacheKey with
  | some pid => (.joined pid, st)
  | none =>
    (.started st.nextId,
      { cache := st.cache
        inFlight := fun k => if k = cacheKey then some st.nextId else st.inFlight k
        nextId := st.nextId + 1
        networkCalls := cacheKey :: st.networkCalls })

/-- The synchronous entry step of fetchAnalysis: return the cached
value if the lookup is truthy — present and non-empty, since the
source tests the string itself, not membership — else join an
in-flight promise for the same key, else issue one network call and
register its promise in flight. -/
def fetchAnalysisStart (st : CoordState) (role : Role) (audience : Audience)
    (analysisType : AnalysisType) (normalizedInput : String) :
    FetchOutcome × CoordState :=
  let cacheKey := buildCacheKey role audience analysisType normalizedInput
  match st.cache cacheKey with
  | some cached =>
    if cached = "" then fetchAnalysisMiss st cacheKey
    else (.cachedHit cached, st)
  | none => fetchAnalysisMiss st cacheKey

/-- The parsed JSON body of an analyze response. -/
structure RespData where
  result : Option String
  error : Option String
deriving DecidableEq, Repr

/-- How the transport settles: the fetch rejects, or a response arrives
with a status and a body that parses to JSON or does not. -/
inductive Transport
  | netFail
  | resp (status : Nat) (body : Option RespData)
deriving DecidableEq, Repr

/-- The ok flag of a fetch response: a status in the 2xx range. -/
def respOk (status : Nat) : Bool := (200 ≤ status && status < 300)

/-- The or-else of JavaScript on an optional string: the fallback when
the value is absent or empty. -/
def jsOrS (a : Option String) (b : String) : String :=
  match a with
  | some s => if s = "" then b else s
  | none => b

/-- The settlement step of fetchAnalysis: the promise body of the
source evaluated against a transport outcome.  Error outcomes become
result strings with the Error marker and leave the cache alone; a
successful non-blank result is sanitized, focused, and cached.  The
finally handler removes the in-flight entry in every case. -/
def fetchAnalysisSettle (st : CoordState) (endpoint : String) (role : Role)
    (audience : Audience) (analysisType : AnalysisType)
    (normalizedInput : String) (t : Transport) : String × CoordState :=
  let cacheKey := buildCacheKey role audience analysisType normalizedInput
  let rc : String × (String → Option String) :=
    match t with
    | .netFail =>
      ("Error: Failed to reach backend at " ++ endpoint ++ ". Ensure backend is running.",
        st.cache)
    | .resp status body =>
      match body with
      | none => ("Error: Invalid server response (" ++ toString status ++ ").", st.cache)
      | some data =>
        if !respOk status then
          ("Error: " ++ jsOrS data.error ("Server request failed (" ++ toString status ++ ").")
            , st.cache)
        else
          match data.result with
          | none => ("Error: No response from server.", st.cache)
          | some r =>
            if strTrim r = "" then ("Error: No response from server.", st.cache)
            else
              let focusedResult := focusAnalysisResult (stripIpcMentions r) analysisType
              (focusedResult, fun k => if k = cacheKey then some focusedResult else st.cache k)
  (rc.1,
    { st with
      cache := rc.2
      inFlight := fun k => if k = cacheKey then none else st.inFlight k })

/-- The transport outcomes the promise body maps to an error string:
rejection, unparseable body, non-2xx status, or a missing or blank
result field. -/
def isErrorTransport : Transport → Prop
  | .netFail => True
  | .resp status body =>
    match body with
    | none => True
    | some data =>
      if !respOk status then True
      else
        match data.result with
        | none => True
        | some r => strTrim r = ""

instance : DecidablePred isErrorTransport := by
  intro t
  unfold isErrorTransport
  cases t with
  | netFail => exact inferInstance
  | resp status body =>
    cases body with
    | none => exact inferInstance
    | some data =>
      dsimp only
      split
      · exact inferInstance
      · cases data.result with
        | none => exact inferInstance
        | some r => exact inferInstance

/-!
## The analyze entry point getIpcSections

The model covers the synchronous prefix of the handler: the analysis
type selection, the empty-input guard, the cache short-circuit with
its background prefetch of the other analysis types, and otherwise
the loading flip and the entry step of fetchAnalysis up to the first
suspension point.
-/

/-- The screen state the entry point manipulates. -/
structure AppState where
  inputText : String
  scenarioRole : Role
  result : String
  selectedAnalysisType : Option AnalysisType
  loading : Bool
  coord : CoordState

/-- What the entry point does before its first suspension point. -/
inductive GetStep
  | noInput
  | cacheHit (v : String)
  | fetchStarted (o : FetchOutcome)
deriving DecidableEq, Repr

/-- The truthiness of a JavaScript map lookup yielding a string: the
entry exists and is non-empty. -/
def jsTruthyS : Option String → Bool
  | some v => v != ""
  | none => false

/-- The three analysis types in source order. -/
def ANALYSIS_TYPES : List AnalysisType := [.sections, .punishments, .next_steps]

/-- The synchronous effect of prefetchOtherAnalyses: for each other
analysis type whose key has no truthy cached value and no in-flight
promise, run the entry step of fetchAnalysis and discard the
fire-and-forget promise. -/
def prefetchOtherAnalyses (st : CoordState) (role : Role) (audience : Audience)
    (selectedType : AnalysisType) (normalizedInput : String) : CoordState :=
  (ANALYSIS_TYPES.filter (fun t => t != selectedType)).foldl
    (fun c t =>
      let key := buildCacheKey role audience t normalizedInput
      if jsTruthyS (c.cache key) || (c.inFlight key).isSome then c
      else (fetchAnalysisStart c role audience t normalizedInput).2)
    st

/-- The synchronous prefix of getIpcSections: select the analysis
type, return on blank input, short-circuit on a truthy cached value
while prefetching the other analysis types, else flip loading, clear
the result and enter fetchAnalysis. -/
def getIpcSectionsStart (st : AppState) (analysisType : AnalysisType) :
    AppState × GetStep :=
  let st1 := { st with selectedAnalysisType := some analysisType }
  let normalizedInput := strTrim st.inputText
  if normalizedInput = "" then (st1, .noInput)
  else
    let activeRole := st.scenarioRole
    let activeAudience := Audience.general
    let cacheKey := buildCacheKey activeRole activeAudience analysisType normalizedInput
    let miss :=
      let st2 := { st1 with loading := true, result := "" }
      let fr := fetchAnalysisStart st2.coord activeRole activeAudience analysisType normalizedInput
      ({ st2 with coord := fr.2 }, GetStep.fetchStarted fr.1)
    match st.coord.cache cacheKey with
    | some cached =>
      if cached = "" then miss
      else
        ({ st1 with
            result := cached
            coord := prefetchOtherAnalyses st.coord activeRole activeAudience
              analysisType normalizedInput }, .cacheHit cached)
    | none => miss

/-- n further invocations of the entry step of fetchAnalysis with
identical inputs, threading the coordinator state, collecting what each
caller observes. -/
def startN (role : Role) (audience : Audience) (analysisType : AnalysisType)
    (normalizedInput : String) : Nat → CoordState → List FetchOutcome × CoordState
  | 0, st => ([], st)
  | n + 1, st =>
    let r := fetchAnalysisStart st role audience analysisType normalizedInput
    let rest := startN role audience analysisType normalizedInput n r.2
    (r.1 :: rest.1, rest.2)

/-- A coordinator state with empty cache and registry. -/
def emptyCoord : CoordState := ⟨fun _ => none, fun _ => none, 0, []⟩

/-!
## Occurrence predicates for the sanitizer idempotence proof

An occurrence of the token IPC in a text is given by a decomposition
into a left part, the three token characters and a right part.  The
predicates below describe texts in which every occurrence is inert for
the matchers of the sanitizer: the occurrence is preceded by a word
character, or its right context rules the matcher out.  The previous
character parameter plays the role of the text preceding the list,
exactly as in the scanner.
-/

/-- The character immediately preceding a position: the last element of
the left part, or the outer previous character when the left part is
empty. -/
def prevCtx (p : Option Char) (l1 : List Char) : Option Char :=
  match l1.getLast? with
  | some w => some w
  | none => p

/-- The occurrence is preceded by a word character, so the leading word
boundary of the token patterns fails. -/
def leftBlocked (p : Option Char) (l1 : List Char) : Bool :=
  isWordO (prevCtx p l1)

/-- First character equals the given one. -/
def headIs (c : Char) : List Char → Bool
  | [] => false
  | x :: _ => x = c

/-- After skipping whitespace the next character is an identifier
character: the continuation condition of the IPC-identifier
matcher. -/
def wsThenClass (l : List Char) : Bool := headClass (l.dropWhile isWsChar)

/-- Every occurrence of the token IPC in the text is left-blocked or
has a right context satisfying R. -/
def OccProp (R : List Char → Prop) (p : Option Char) (l : List Char) : Prop :=
  ∀ l1 a b c l2, l = l1 ++ a :: b :: c :: l2 → isIpc3 a b c = true →
    leftBlocked p l1 = true ∨ R l2

/-- Every occurrence is left-blocked or immediately followed by an
underscore; such texts are fixed points of all four token matchers. -/
def SafeIpc (p : Option Char) (l : List Char) : Prop :=
  OccProp (fun l2 => headIs '_' l2 = true) p l

/-- No occurrence is both left-open and followed, after optional
whitespace, by an identifier character: what the IPC-identifier stage
leaves behind. -/
def NoLWC (p : Option Char) (l : List Char) : Prop :=
  OccProp (fun l2 => wsThenClass l2 = false) p l

/-- No occurrence is both left-open and right-bounded: what the bare
IPC stage leaves behind. -/
def NoBB (p : Option Char) (l : List Char) : Prop :=
  OccProp (fun l2 => headWord l2 = true) p l

/-- No two adjacent space-or-tab characters. -/
def NoDbl (l : List Char) : Prop :=
  ∀ l1 a b l2, l = l1 ++ a :: b :: l2 → ¬(isSpaceTab a = true ∧ isSpaceTab b = true)

/-- No three adjacent newlines. -/
def NoTri (l : List Char) : Prop :=
  ∀ l1 l2, l = l1 ++ '\n' :: '\n' :: '\n' :: l2 → False

/-!
## Theorems
-/

/-- C2 (amended): once a key has a non-empty cached entry, a
subsequent fetchAnalysis for that key returns the cached value
immediately, leaves the state untouched and does not invoke the
network transport. -/
theorem c2_cache_hit_nonempty_no_transport (st : CoordState) (role : Role)
    (audience : Audience) (analysisType : AnalysisType) (input v : String)
    (h : st.cache (buildCacheKey role audience analysisType input) = some v)
    (hv : v ≠ "") :
    fetchAnalysisStart st role audience analysisType input = (.cachedHit v, st) := by
  simp only [fetchAnalysisStart]
  rw [h]
  simp [hv]

/-- Witness for the amended C2 at a concrete state holding one
non-empty cached entry. -/
theorem c2_cache_hit_nonempty_no_transport_witness :
    (let st : CoordState :=
      ⟨fun k => if k = buildCacheKey .self .general .sections "x" then some "y" else none,
        fun _ => none, 0, []⟩
     fetchAnalysisStart st .self .general .sections "x" = (.cachedHit "y", st)) :=
  c2_cache_hit_nonempty_no_transport _ .self .general .sections "x" "y" (by simp) (by decide)

/-- C2 fails as stated: a cached empty string is reachable — a 200
reply whose result field is the bare token IPC passes the blank
guard, sanitizes and focuses to the empty string, and is stored — and
on the next call the source's truthy cache test falls through, so a
second network call is issued instead of the cached value being
returned. -/
theorem c2_counterexample :
    (let st := (fetchAnalysisSettle
        (fetchAnalysisStart emptyCoord .self .general .sections "x").2
        analyzeEndpointDefault .self .general .sections "x"
        (.resp 200 (some ⟨some "IPC", none⟩))).2
     st.cache (buildCacheKey .self .general .sections "x") = some "" ∧
     (fetchAnalysisStart st .self .general .sections "x").1 = .started st.nextId ∧
     (fetchAnalysisStart st .self .general .sections "x").2.networkCalls =
       buildCacheKey .self .general .sections "x" :: st.networkCalls) := by
  refine ⟨?_, ?_, ?_⟩ <;> decide

/-- C1: from a state where the key is neither cached nor in flight, a
first fetchAnalysis issues exactly one network call and registers its
promise; any number of further invocations with identical inputs leave
the state untouched, issue no network call and observe the same
pending promise. -/
theorem c1_concurrent_dedup (st : CoordState) (role : Role) (audience : Audience)
    (analysisType : AnalysisType) (input : String)
    (h1 : st.cache (buildCacheKey role audience analysisType input) = none)
    (h2 : st.inFlight (buildCacheKey role audience analysisType input) = none) :
    ∃ pid st₁,
      fetchAnalysisStart st role audience analysisType input = (.started pid, st₁) ∧
      st₁.networkCalls = buildCacheKey role audience analysisType input :: st.networkCalls ∧
      ∀ n, startN role audience analysisType input n st₁ =
        (List.replicate n (.joined pid), st₁) := by
  refine ⟨st.nextId,
    { cache := st.cache
      inFlight := fun k =>
        if k = buildCacheKey role audience analysisType input then some st.nextId
        else st.inFlight k
      nextId := st.nextId + 1
      networkCalls := buildCacheKey role audience analysisType input :: st.networkCalls },
    ?_, rfl, ?_⟩
  · simp only [fetchAnalysisStart, fetchAnalysisMiss]
    rw [h1, h2]
  · intro n
    induction n with
    | zero => rfl
    | succ n ih =>
      simp only [startN, fetchAnalysisStart, fetchAnalysisMiss]
      rw [h1]
      simp [ih, List.replicate_succ]

/-- Witness for C1 at the empty coordinator state. -/
theorem c1_concurrent_dedup_witness :
    ∃ pid st₁,
      fetchAnalysisStart emptyCoord .self .general .sections "x" = (.started pid, st₁) ∧
      st₁.networkCalls = buildCacheKey .self .general .sections "x" :: emptyCoord.networkCalls ∧
      ∀ n, startN .self .general .sections "x" n st₁ =
        (List.replicate n (.joined pid), st₁) :=
  c1_concurrent_dedup emptyCoord .self .general .sections "x" rfl rfl

/-- C9: whatever the transport outcome, the settlement of fetchAnalysis
removes the in-flight entry of the key, so a later call for the same
key never joins an already settled promise. -/
theorem c9_settle_removes_inflight (st : CoordState) (endpoint : String)
    (role : Role) (audience : Audience) (analysisType : AnalysisType)
    (input : String) (t : Transport) :
    ((fetchAnalysisSettle st endpoint role audience analysisType input t).2).inFlight
        (buildCacheKey role audience analysisType input) = none ∧
    ∀ pid,
      (fetchAnalysisStart (fetchAnalysisSettle st endpoint role audience analysisType input t).2
          role audience analysisType input).1 ≠ .joined pid := by
  constructor
  · simp [fetchAnalysisSettle]
  · intro pid
    have hf :
        (fetchAnalysisSettle st endpoint role audience analysisType input t).2.inFlight
          (buildCacheKey role audience analysisType input) = none := by
      simp [fetchAnalysisSettle]
    simp only [fetchAnalysisStart]
    cases hc :
        (fetchAnalysisSettle st endpoint role audience analysisType input t).2.cache
          (buildCacheKey role audience analysisType input) with
    | some v =>
      by_cases hv : v = ""
      · simp [hv, fetchAnalysisMiss, hf]
      · simp [hv]
    | none => simp [fetchAnalysisMiss, hf]

/-- C10: with blank input, the entry point only records the selected
analysis type: the result, the loading flag, the cache and the
in-flight registry are untouched and no network call is made. -/
theorem c10_blank_input_frame (st : AppState) (analysisType : AnalysisType)
    (h : strTrim st.inputText = "") :
    getIpcSectionsStart st analysisType =
      ({ st with selectedAnalysisType := some analysisType }, .noInput) := by
  simp [getIpcSectionsStart, h]

/-- Witness for C10 at a whitespace-only input. -/
theorem c10_blank_input_frame_witness :
    (let st : AppState := ⟨"  ", .self, "r", none, false, emptyCoord⟩
     getIpcSectionsStart st .punishments =
      ({ st with selectedAnalysisType := some .punishments }, .noInput)) :=
  c10_blank_input_frame _ .punishments (by decide)

/-- A prefix check succeeding on a list keeps succeeding when the list
is extended on the right. -/
theorem startsWithL_append (p l r : List Char) (h : startsWithL p l = true) :
    startsWithL p (l ++ r) = true := by
  induction p generalizing l with
  | nil => simp [startsWithL]
  | cons c cs ih =>
    cases l with
    | nil => simp [startsWithL] at h
    | cons a as =>
      simp only [startsWithL, List.cons_append] at h ⊢
      by_cases hc : c = a
      · simp only [hc, if_true] at h ⊢
        exact ih as h
      · simp [hc] at h

/-- C3: every transport outcome the promise body classifies as a
failure resolves to a plain result string carrying the Error marker,
and the cache entry of the key is neither created nor modified. -/
theorem c3_error_string_no_cache (st : CoordState) (endpoint : String)
    (role : Role) (audience : Audience) (analysisType : AnalysisType)
    (input : String) (t : Transport) (h : isErrorTransport t) :
    startsWithL "Error:".data
        (fetchAnalysisSettle st endpoint role audience analysisType input t).1.data = true ∧
    (fetchAnalysisSettle st endpoint role audience analysisType input t).2.cache = st.cache := by
  cases t with
  | netFail =>
    refine ⟨?_, rfl⟩
    simp only [fetchAnalysisSettle, String.data_append]
    exact startsWithL_append _ _ _ (startsWithL_append _ _ _ (by decide))
  | resp status body =>
    cases body with
    | none =>
      refine ⟨?_, rfl⟩
      simp only [fetchAnalysisSettle, String.data_append]
      exact startsWithL_append _ _ _ (startsWithL_append _ _ _ (by decide))
    | some data =>
      by_cases hok : respOk status
      · cases hr : data.result with
        | none =>
          constructor
          · simp [fetchAnalysisSettle, hok, hr]
            decide
          · simp [fetchAnalysisSettle, hok, hr]
        | some r =>
          have ht : strTrim r = "" := by
            simpa [isErrorTransport, hok, hr] using h
          constructor
          · simp [fetchAnalysisSettle, hok, hr, ht]
            decide
          · simp [fetchAnalysisSettle, hok, hr, ht]
      · have hok2 : respOk status = false := by
          exact Bool.not_eq_true _ ▸ (by simpa using hok)
        refine ⟨?_, ?_⟩
        · simp only [fetchAnalysisSettle, hok2, Bool.not_false, if_true,
            String.data_append]
          exact startsWithL_append _ _ _ (by decide)
        · simp [fetchAnalysisSettle, hok2]

/-- Witness for C3 at a rejected network call. -/
theorem c3_error_string_no_cache_witness :
    isErrorTransport Transport.netFail ∧
    (startsWithL "Error:".data
        (fetchAnalysisSettle emptyCoord analyzeEndpointDefault .self .general .sections "x"
          Transport.netFail).1.data = true ∧
      (fetchAnalysisSettle emptyCoord analyzeEndpointDefault .self .general .sections "x"
          Transport.netFail).2.cache = emptyCoord.cache) :=
  ⟨trivial,
    c3_error_string_no_cache emptyCoord analyzeEndpointDefault .self .general .sections "x"
      Transport.netFail trivial⟩

/-- C6, amended: the cache is populated exactly with the sanitized
reply text further narrowed by focusAnalysisResult for the analysis
type of the request. -/
theorem c6_cache_stores_focused_sanitized (st : CoordState) (endpoint : String)
    (role : Role) (audience : Audience) (analysisType : AnalysisType)
    (input : String) (status : Nat) (data : RespData) (r : String)
    (hok : respOk status = true) (hr : data.result = some r)
    (ht : strTrim r ≠ "") :
    ((fetchAnalysisSettle st endpoint role audience analysisType input
          (.resp status (some data))).2).cache
        (buildCacheKey role audience analysisType input) =
      some (focusAnalysisResult (stripIpcMentions r) analysisType) := by
  simp [fetchAnalysisSettle, hok, hr, ht]

/-- Witness for C6 at a concrete successful response. -/
theorem c6_cache_stores_focused_sanitized_witness :
    respOk 200 = true ∧
    ((fetchAnalysisSettle emptyCoord analyzeEndpointDefault .self .general .sections "x"
          (.resp 200 (some ⟨some "ok text", none⟩))).2).cache
        (buildCacheKey .self .general .sections "x") =
      some (focusAnalysisResult (stripIpcMentions "ok text") .sections) :=
  ⟨by decide,
    c6_cache_stores_focused_sanitized emptyCoord analyzeEndpointDefault .self .general
      .sections "x" 200 ⟨some "ok text", none⟩ "ok text" (by decide) rfl (by decide)⟩

/-- Counterexample for C6 as stated: a successful settle whose cached
value is not the sanitizer output of the raw reply, because
focusAnalysisResult is applied before caching. -/
theorem c6_counterexample :
    ((fetchAnalysisSettle emptyCoord analyzeEndpointDefault .self .general .sections "x"
          (.resp 200 (some ⟨some "hello\nSection 103 applies", none⟩))).2).cache
        (buildCacheKey .self .general .sections "x") =
      some "Section 103 applies" ∧
    stripIpcMentions "hello\nSection 103 applies" = "hello\nSection 103 applies" ∧
    ("Section 103 applies" : String) ≠ "hello\nSection 103 applies" := by
  refine ⟨?_, by decide, by decide⟩
  decide

/-- A placeholder-guarded item list is never empty. -/
theorem placeholderFallbackNonEmpty (ph : List Char) (items : List (List Char)) :
    (if items = [] then [ph] else items) ≠ [] := by
  split
  · simp
  · assumption

/-- Totality of the structuring pipeline on character lists: the title
is never empty, and when the normalized text is non-empty and an
analysis type is selected the item list is non-empty. -/
theorem buildStructuredResultL_total (l : List Char) (analysisType : Option AnalysisType) :
    (buildStructuredResultL l analysisType).1 ≠ [] ∧
    (trimL (replaceCRLF l) ≠ [] → ∀ a : AnalysisType, analysisType = some a →
      (buildStructuredResultL l analysisType).2 ≠ []) := by
  by_cases hn : trimL (replaceCRLF l) = []
  · refine ⟨?_, fun h => absurd hn h⟩
    simp [buildStructuredResultL, hn]
  · cases analysisType with
    | none =>
      refine ⟨?_, fun _ a ha => by simp at ha⟩
      simp [buildStructuredResultL, hn]
    | some a =>
      cases a with
      | sections =>
        refine ⟨by simp [buildStructuredResultL, hn], fun _ _ _ => ?_⟩
        simp only [buildStructuredResultL, if_neg hn]
        exact placeholderFallbackNonEmpty _ _
      | punishments =>
        refine ⟨by simp [buildStructuredResultL, hn], fun _ _ _ => ?_⟩
        simp only [buildStructuredResultL, if_neg hn]
        exact placeholderFallbackNonEmpty _ _
      | next_steps =>
        refine ⟨by simp [buildStructuredResultL, hn], fun _ _ _ => ?_⟩
        simp only [buildStructuredResultL, if_neg hn]
        exact placeholderFallbackNonEmpty _ _

/-- C4, amended: for every input whose normalized trimmed form is
non-empty and every selected analysis type the pipeline yields a
non-empty title and at least one item, the fixed placeholder when no
heuristic matches; the title is non-empty for every input, while in
the initial unselected state the item list may be empty. -/
theorem c4_structuring_totality (text : String) (analysisType : Option AnalysisType) :
    (buildStructuredResult text analysisType).title ≠ "" ∧
    (trimL (replaceCRLF text.data) ≠ [] → ∀ a : AnalysisType, analysisType = some a →
      (buildStructuredResult text analysisType).items ≠ []) := by
  have h := buildStructuredResultL_total text.data analysisType
  constructor
  · intro he
    exact h.1 (by simpa [buildStructuredResult, String.ext_iff] using he)
  · intro hne a ha he
    exact h.2 hne a ha (by simpa [buildStructuredResult] using he)

/-- Witness for C4 at a concrete scenario and the sections type. -/
theorem c4_structuring_totality_witness :
    trimL (replaceCRLF ("hello" : String).data) ≠ [] ∧
    ((buildStructuredResult "hello" (some .sections)).title ≠ "" ∧
      (trimL (replaceCRLF ("hello" : String).data) ≠ [] →
        ∀ a : AnalysisType, (some AnalysisType.sections : Option AnalysisType) = some a →
        (buildStructuredResult "hello" (some .sections)).items ≠ [])) :=
  ⟨by decide, c4_structuring_totality "hello" (some .sections)⟩

/-- Counterexample for C4 as stated: the whitespace-only scenario is a
non-empty input string for which the pipeline returns no items at
all. -/
theorem c4_counterexample :
    (" " : String) ≠ "" ∧
    (buildStructuredResult " " (some .sections)).items = [] :=
  ⟨by decide, by decide⟩

/-- C5, amended: on the example reply the sections branch yields the
section heading item and a reason item that repeats the connector
prefix already present in the continuation line. -/
theorem c5_sections_example_actual :
    (buildStructuredResult
        "* Section 103: Culpable homicide\n- Kyun lagu hota hai: weapon use karke maara"
        (some .sections)).items =
      ["Section 103: Culpable homicide",
       "Kyun lagu hota hai: Kyun lagu hota hai: weapon use karke maara"] := by
  decide

/-- Counterexample for C5 as stated: the pipeline does not yield the
two items of the claim on the example input. -/
theorem c5_counterexample :
    (buildStructuredResult
        "* Section 103: Culpable homicide\n- Kyun lagu hota hai: weapon use karke maara"
        (some .sections)).items ≠
      ["Section 103: Culpable homicide",
       "Kyun lagu hota hai: weapon use karke maara"] := by
  decide

/-- C8: cache keys built from scenario texts that agree up to letter
case, with identical role, audience and analysis type, are
identical. -/
theorem c8_cache_key_case_insensitive (role : Role) (audience : Audience)
    (analysisType : AnalysisType) (s₁ s₂ : String)
    (h : s₁.data.map lowerChar = s₂.data.map lowerChar) :
    buildCacheKey role audience analysisType s₁ =
      buildCacheKey role audience analysisType s₂ := by
  unfold buildCacheKey lowerStr lowerL
  rw [h]

/-- Witness for C8 on two case variants of one text. -/
theorem c8_cache_key_case_insensitive_witness :
    "AbC".data.map lowerChar = "aBc".data.map lowerChar ∧
    buildCacheKey .self .general .sections "AbC" =
      buildCacheKey .self .general .sections "aBc" :=
  ⟨by decide, c8_cache_key_case_insensitive .self .general .sections "AbC" "aBc" (by decide)⟩

/-!
## Sanitizer idempotence: character facts
-/

theorem isIpc3_cases {a b c : Char} (h : isIpc3 a b c = true) :
    (a = 'i' ∨ a = 'I') ∧ (b = 'p' ∨ b = 'P') ∧ (c = 'c' ∨ c = 'C') := by
  simpa [isIpc3, and_assoc] using h

theorem ipcFirst_word {a b c : Char} (h : isIpc3 a b c = true) : isWordChar a = true := by
  rcases (isIpc3_cases h).1 with rfl | rfl <;> decide

theorem ipcSecond_word {a b c : Char} (h : isIpc3 a b c = true) : isWordChar b = true := by
  rcases (isIpc3_cases h).2.1 with rfl | rfl <;> decide

theorem ipcThird_word {a b c : Char} (h : isIpc3 a b c = true) : isWordChar c = true := by
  rcases (isIpc3_cases h).2.2 with rfl | rfl <;> decide

theorem ipcFirst_class {a b c : Char} (h : isIpc3 a b c = true) : isClassChar a = true := by
  rcases (isIpc3_cases h).1 with rfl | rfl <;> decide

theorem not_ipc3_head_nonword {a : Char} (h : isWordChar a = false) (b c : Char) :
    isIpc3 a b c = false := by
  cases hi : isIpc3 a b c
  · rfl
  · rw [ipcFirst_word hi] at h
    exact absurd h (by simp)

theorem not_ipc3_head_nonclass {a : Char} (h : isClassChar a = false) (b c : Char) :
    isIpc3 a b c = false := by
  cases hi : isIpc3 a b c
  · rfl
  · rw [ipcFirst_class hi] at h
    exact absurd h (by simp)

theorem word_not_class_underscore {w : Char} (h1 : isWordChar w = true)
    (h2 : isClassChar w = false) : w = '_' := by
  have hc : isClassChar w ≠ true := by simp [h2]
  simp only [isWordChar, Bool.or_eq_true, Bool.and_eq_true, decide_eq_true_eq] at h1
  simp only [isClassChar] at hc
  rcases h1 with ((h | h) | h) | h
  · exact absurd (by simp [h.1, h.2]) hc
  · exact absurd (by simp [h.1, h.2]) hc
  · exact absurd (by simp [h.1, h.2]) hc
  · exact h

theorem ws_not_word {x : Char} (h : isWsChar x = true) : isWordChar x = false := by
  simp only [isWsChar, Bool.or_eq_true, decide_eq_true_eq] at h
  rcases h with ((((rfl | rfl) | rfl) | rfl) | rfl) | rfl <;> decide

theorem ws_not_class {x : Char} (h : isWsChar x = true) : isClassChar x = false := by
  simp only [isWsChar, Bool.or_eq_true, decide_eq_true_eq] at h
  rcases h with ((((rfl | rfl) | rfl) | rfl) | rfl) | rfl <;> decide

theorem st_not_word {x : Char} (h : isSpaceTab x = true) : isWordChar x = false := by
  simp only [isSpaceTab, Bool.or_eq_true, decide_eq_true_eq] at h
  rcases h with rfl | rfl <;> decide

theorem st_ws {x : Char} (h : isSpaceTab x = true) : isWsChar x = true := by
  simp only [isSpaceTab, Bool.or_eq_true, decide_eq_true_eq] at h
  rcases h with rfl | rfl <;> decide

/-!
## Sanitizer idempotence: scanner and occurrence basics
-/

theorem scanRF_nilL (m : Option Char → List Char → Option MatchRes) (fuel : Nat)
    (p : Option Char) : scanRF m fuel p [] = [] := by
  cases fuel <;> rfl

theorem scanRF_cons_none {m : Option Char → List Char → Option MatchRes}
    {p : Option Char} {c : Char} {cs : List Char} (fuel : Nat)
    (h : m p (c :: cs) = none) :
    scanRF m (fuel + 1) p (c :: cs) = c :: scanRF m fuel (some c) cs := by
  simp [scanRF, h]

theorem scanRF_cons_some {m : Option Char → List Char → Option MatchRes}
    {p : Option Char} {c : Char} {cs out rest : List Char} {lc : Char} (fuel : Nat)
    (h : m p (c :: cs) = some (out, lc, rest)) :
    scanRF m (fuel + 1) p (c :: cs) = out ++ scanRF m fuel (some lc) rest := by
  simp [scanRF, h]

/-- The no-match step for arbitrary fuel, with truncated subtraction
absorbing the exhausted case. -/
theorem scanRF_cons_pred {m : Option Char → List Char → Option MatchRes}
    {p : Option Char} {c : Char} {cs : List Char} (fuel : Nat)
    (h : m p (c :: cs) = none) :
    scanRF m fuel p (c :: cs) = c :: scanRF m (fuel - 1) (some c) cs := by
  cases fuel with
  | zero => rfl
  | succ f => simpa using scanRF_cons_none f h

theorem prevCtx_cons (p : Option Char) (a : Char) (l1 : List Char) :
    prevCtx p (a :: l1) = prevCtx (some a) l1 := by
  cases l1 with
  | nil => rfl
  | cons x xs =>
    rcases hg : (x :: xs).getLast? with _ | w
    · simp at hg
    · simp [prevCtx, List.getLast?_cons_cons, hg]

theorem leftBlocked_cons (p : Option Char) (a : Char) (l1 : List Char) :
    leftBlocked p (a :: l1) = leftBlocked (some a) l1 := by
  simp [leftBlocked, prevCtx_cons]

theorem occ_nil (R : List Char → Prop) (p : Option Char) : OccProp R p [] := by
  intro l1 a b c l2 h
  cases l1 <;> simp at h

theorem occ_tail {R : List Char → Prop} {p : Option Char} {x : Char} {l : List Char}
    (h : OccProp R p (x :: l)) : OccProp R (some x) l := by
  intro l1 a b c l2 hd hi
  have h2 := h (x :: l1) a b c l2 (by rw [hd]; rfl) hi
  rwa [leftBlocked_cons] at h2

theorem occ_cons {R : List Char → Prop} {p : Option Char} {x : Char} {l : List Char}
    (hHead : ∀ b c l2, l = b :: c :: l2 → isIpc3 x b c = true → isWordO p = true ∨ R l2)
    (hTail : OccProp R (some x) l) : OccProp R p (x :: l) := by
  intro l1 a b c l2 hd hi
  cases l1 with
  | nil =>
    have hx : x = a ∧ l = b :: c :: l2 := by simpa using hd
    obtain ⟨rfl, hl⟩ := hx
    have := hHead b c l2 hl hi
    simpa [leftBlocked, prevCtx] using this
  | cons y l1p =>
    have hx : x = y ∧ l = l1p ++ a :: b :: c :: l2 := by simpa using hd
    obtain ⟨rfl, hl⟩ := hx
    have := hTail l1p a b c l2 hl hi
    rwa [leftBlocked_cons]

theorem occ_congrPrev {R : List Char → Prop} {p q : Option Char} {l : List Char}
    (hpq : isWordO p = isWordO q) (h : OccProp R p l) : OccProp R q l := by
  intro l1 a b c l2 hd hi
  have h2 := h l1 a b c l2 hd hi
  cases l1 with
  | nil => simpa [leftBlocked, prevCtx, ← hpq] using h2
  | cons y l1p => rwa [leftBlocked_cons] at h2 ⊢

theorem occ_changePrev {R : List Char → Prop} {p q : Option Char} {l : List Char}
    (hHead : ∀ b c d l2, l = b :: c :: d :: l2 → isIpc3 b c d = false)
    (h : OccProp R q l) : OccProp R p l := by
  intro l1 a b c l2 hd hi
  cases l1 with
  | nil =>
    have hl : l = a :: b :: c :: l2 := by simpa using hd
    rw [hHead a b c l2 hl] at hi
    exact absurd hi (by simp)
  | cons y l1p =>
    have h2 := h (y :: l1p) a b c l2 hd hi
    rwa [leftBlocked_cons] at h2 ⊢

/-!
## Sanitizer idempotence: matcher inversion facts
-/

theorem ipcSectionM_none_word {p : Option Char} {l : List Char}
    (h : isWordO p = true) : ipcSectionM p l = none := by
  cases l with
  | nil => rfl
  | cons a l =>
    cases l with
    | nil => rfl
    | cons b l =>
      cases l with
      | nil => rfl
      | cons c rest => simp [ipcSectionM, h]

theorem ipcIdM_none_word {p : Option Char} {l : List Char}
    (h : isWordO p = true) : ipcIdM p l = none := by
  cases l with
  | nil => rfl
  | cons a l =>
    cases l with
    | nil => rfl
    | cons b l =>
      cases l with
      | nil => rfl
      | cons c rest => simp [ipcIdM, h]

theorem ipcBareM_none_word {p : Option Char} {l : List Char}
    (h : isWordO p = true) : ipcBareM p l = none := by
  cases l with
  | nil => rfl
  | cons a l =>
    cases l with
    | nil => rfl
    | cons b l =>
      cases l with
      | nil => rfl
      | cons c rest => simp [ipcBareM, h]

theorem ipcSectionM_none_headNotIpc {p : Option Char} {a : Char} {cs : List Char}
    (h : ∀ b c, isIpc3 a b c = false) : ipcSectionM p (a :: cs) = none := by
  cases cs with
  | nil => rfl
  | cons b l =>
    cases l with
    | nil => rfl
    | cons c rest => simp [ipcSectionM, h b c]

theorem ipcIdM_none_headNotIpc {p : Option Char} {a : Char} {cs : List Char}
    (h : ∀ b c, isIpc3 a b c = false) : ipcIdM p (a :: cs) = none := by
  cases cs with
  | nil => rfl
  | cons b l =>
    cases l with
    | nil => rfl
    | cons c rest => simp [ipcIdM, h b c]

theorem ipcBareM_none_headNotIpc {p : Option Char} {a : Char} {cs : List Char}
    (h : ∀ b c, isIpc3 a b c = false) : ipcBareM p (a :: cs) = none := by
  cases cs with
  | nil => rfl
  | cons b l =>
    cases l with
    | nil => rfl
    | cons c rest => simp [ipcBareM, h b c]

theorem ipcIdM_none_nonclass {p : Option Char} {a : Char} {cs : List Char}
    (h : isClassChar a = false) : ipcIdM p (a :: cs) = none :=
  ipcIdM_none_headNotIpc fun b c => not_ipc3_head_nonclass h b c

theorem ipcBareM_none_nonclass {p : Option Char} {a : Char} {cs : List Char}
    (h : isClassChar a = false) : ipcBareM p (a :: cs) = none :=
  ipcBareM_none_headNotIpc fun b c => not_ipc3_head_nonclass h b c

/-- The step of a word-blocked matcher after a word character. -/
theorem scanRF_word_step {m : Option Char → List Char → Option MatchRes}
    (hWord : ∀ (p : Option Char) (l : List Char), isWordO p = true → m p l = none)
    {w x : Char} {xs : List Char} (fuel : Nat) (hw : isWordChar w = true) :
    scanRF m fuel (some w) (x :: xs) = x :: scanRF m (fuel - 1) (some x) xs :=
  scanRF_cons_pred fuel (hWord _ _ (by simp [isWordO, hw]))

/-!
## Sanitizer idempotence: identity of a scan with no matches
-/

theorem scan_id_of_nomatch {m : Option Char → List Char → Option MatchRes}
    (P : Option Char → List Char → Prop)
    (hTail : ∀ p a l, P p (a :: l) → P (some a) l)
    (hNone : ∀ p l, P p l → m p l = none) :
    ∀ (fuel : Nat) (p : Option Char) (l : List Char), P p l → scanRF m fuel p l = l := by
  intro fuel
  induction fuel with
  | zero => intro p l _; rfl
  | succ f ih =>
    intro p l h
    cases l with
    | nil => exact scanRF_nilL m (f + 1) p
    | cons c cs =>
      rw [scanRF_cons_none f (hNone p (c :: cs) h)]
      rw [ih (some c) cs (hTail p c cs h)]

/-!
## Sanitizer idempotence: preservation of the continuation conditions
-/

/-- A scan whose matcher fires only at identifier characters never
creates a whitespace-then-identifier continuation. -/
theorem scan_pres_wtc {m : Option Char → List Char → Option MatchRes}
    (hFire : ∀ (p : Option Char) (a : Char) (cs : List Char),
      isClassChar a = false → m p (a :: cs) = none) :
    ∀ (fuel : Nat) (p : Option Char) (l : List Char), wsThenClass l = false →
      wsThenClass (scanRF m fuel p l) = false := by
  intro fuel
  induction fuel with
  | zero => intro p l h; exact h
  | succ f ih =>
    intro p l h
    cases l with
    | nil => simpa [scanRF_nilL] using h
    | cons x xs =>
      by_cases hx : isWsChar x
      · rw [scanRF_cons_none f (hFire p x xs (ws_not_class hx))]
        have hwtc : wsThenClass xs = false := by
          simpa [wsThenClass, List.dropWhile_cons, hx] using h
        have hrec := ih (some x) xs hwtc
        simpa [wsThenClass, List.dropWhile_cons, hx] using hrec
      · have hxc : isClassChar x = false := by
          simpa [wsThenClass, List.dropWhile_cons, hx, headClass] using h
        rw [scanRF_cons_none f (hFire p x xs hxc)]
        simp [wsThenClass, List.dropWhile_cons, hx, headClass, hxc]

theorem word_not_ws {w : Char} (h : isWordChar w = true) : isWsChar w = false := by
  cases hws : isWsChar w
  · rfl
  · rw [ws_not_word hws] at h
    exact absurd h (by simp)

theorem dropWhile_head_false {q : Char → Bool} :
    ∀ {l : List Char} {y : Char} {ys : List Char}, l.dropWhile q = y :: ys → q y = false := by
  intro l
  induction l with
  | nil => intro y ys h; simp at h
  | cons a as ih =>
    intro y ys h
    by_cases ha : q a
    · rw [List.dropWhile_cons, if_pos ha] at h
      exact ih h
    · rw [List.dropWhile_cons, if_neg ha] at h
      obtain ⟨rfl, -⟩ : a = y ∧ as = ys := by simpa using h
      simpa using ha

theorem lengthDropWhileLe (q : Char → Bool) (l : List Char) :
    (l.dropWhile q).length ≤ l.length := by
  induction l with
  | nil => simp
  | cons a as ih =>
    rw [List.dropWhile_cons]
    split
    · exact le_trans ih (by simp)
    · simp

theorem takeWhile_nil_headFalse {q : Char → Bool} {l : List Char}
    (h : l.takeWhile q = []) {y : Char} {ys : List Char} (hl : l = y :: ys) :
    q y = false := by
  subst hl
  by_cases hy : q y
  · rw [List.takeWhile_cons, if_pos hy] at h
    exact absurd h (by simp)
  · simpa using hy

/-- Inversion of a fire of the IPC-identifier matcher. -/
theorem ipcIdM_some_inv {p : Option Char} {l out rest2 : List Char} {lc : Char}
    (h : ipcIdM p l = some (out, lc, rest2)) :
    out = [] ∧
    (∀ y ys, rest2 = y :: ys → isClassChar y = false) ∧
    ∃ a b c rest, l = a :: b :: c :: rest ∧ isWordO p = false ∧ isIpc3 a b c = true ∧
      rest2.length ≤ rest.length := by
  cases l with
  | nil => exact absurd h (by simp [ipcIdM])
  | cons a l =>
    cases l with
    | nil => exact absurd h (by simp [ipcIdM])
    | cons b l =>
      cases l with
      | nil => exact absurd h (by simp [ipcIdM])
      | cons c rest =>
        by_cases hw : isWordO p
        · exact absurd h (by simp [ipcIdM_none_word hw])
        · by_cases hi : isIpc3 a b c
          · have hw2 : isWordO p = false := by simpa using hw
            rw [ipcIdM, if_pos (by simp [hw2, hi])] at h
            simp only [] at h
            rcases hg : ((rest.dropWhile isWsChar).takeWhile isClassChar).getLast? with _ | lc2
            · rw [hg] at h
              exact absurd h (by simp)
            · rw [hg] at h
              obtain ⟨ho, hlc, hr⟩ : [] = out ∧ lc2 = lc ∧
                  (rest.dropWhile isWsChar).dropWhile isClassChar = rest2 := by
                simpa using h
              refine ⟨ho.symm, ?_, a, b, c, rest, rfl, hw2, hi, ?_⟩
              · intro y ys hy
                exact dropWhile_head_false (hr.trans hy)
              · calc rest2.length ≤ (rest.dropWhile isWsChar).length := by
                      rw [← hr]; exact lengthDropWhileLe _ _
                  _ ≤ rest.length := lengthDropWhileLe _ _
          · exact absurd h (by simp [ipcIdM, hw, hi])

/-- A failed IPC-identifier match on an unblocked occurrence means no
identifier follows. -/
theorem ipcIdM_none_inv {p : Option Char} {x b c : Char} {cs : List Char}
    (hm : ipcIdM p (x :: b :: c :: cs) = none) (hw : isWordO p = false)
    (hi : isIpc3 x b c = true) : wsThenClass cs = false := by
  rw [ipcIdM, if_pos (by simp [hw, hi])] at hm
  simp only [] at hm
  rcases hg : ((cs.dropWhile isWsChar).takeWhile isClassChar).getLast? with _ | lc2
  · have h0 : (cs.dropWhile isWsChar).takeWhile isClassChar = [] := by
      simpa using hg
    rcases hd : cs.dropWhile isWsChar with _ | ⟨y, ys⟩
    · simp [wsThenClass, hd, headClass]
    · have := takeWhile_nil_headFalse (hd ▸ h0) rfl
      simp [wsThenClass, hd, headClass, this]
  · rw [hg] at hm
    exact absurd hm (by simp)

/-- Inversion of a fire of the bare-IPC matcher. -/
theorem ipcBareM_some_inv {p : Option Char} {l out rest2 : List Char} {lc : Char}
    (h : ipcBareM p l = some (out, lc, rest2)) :
    out = [] ∧ headWord rest2 = false ∧
    ∃ a b, l = a :: b :: lc :: rest2 ∧ isWordO p = false ∧ isIpc3 a b lc = true := by
  cases l with
  | nil => exact absurd h (by simp [ipcBareM])
  | cons a l =>
    cases l with
    | nil => exact absurd h (by simp [ipcBareM])
    | cons b l =>
      cases l with
      | nil => exact absurd h (by simp [ipcBareM])
      | cons c rest =>
        by_cases hcond : (!isWordO p && isIpc3 a b c && !headWord rest) = true
        · rw [ipcBareM, if_pos hcond] at h
          obtain ⟨h1, h2, h3⟩ : [] = out ∧ c = lc ∧ rest = rest2 := by simpa using h
          simp only [Bool.and_eq_true, Bool.not_eq_true'] at hcond
          exact ⟨h1.symm, h3 ▸ hcond.2, a, b, h2 ▸ h3 ▸ rfl, hcond.1.1, h2 ▸ hcond.1.2⟩
        · rw [ipcBareM, if_neg hcond] at h
          exact absurd h (by simp)

/-- A failed bare-IPC match on an unblocked occurrence means a word
character follows. -/
theorem ipcBareM_none_inv {p : Option Char} {x b c : Char} {cs : List Char}
    (hm : ipcBareM p (x :: b :: c :: cs) = none) (hw : isWordO p = false)
    (hi : isIpc3 x b c = true) : headWord cs = true := by
  by_cases hh : headWord cs = true
  · exact hh
  · have hh2 : headWord cs = false := by simpa using hh
    rw [ipcBareM, if_pos (by simp [hw, hi, hh2])] at hm
    exact absurd hm (by simp)

/-- Two output characters of a word-blocked scan after a word context
expose the first two input characters. -/
theorem scanRF_expose2 {m : Option Char → List Char → Option MatchRes}
    (hWord : ∀ (p : Option Char) (l : List Char), isWordO p = true → m p l = none)
    {a b c : Char} {xs l2 : List Char} (f : Nat)
    (hab : isWordChar a = true) (hbc : isWordChar b = true)
    (hO : scanRF m f (some a) xs = b :: c :: l2) :
    ∃ cs2, xs = b :: c :: cs2 ∧ l2 = scanRF m (f - 2) (some c) cs2 := by
  cases xs with
  | nil => rw [scanRF_nilL] at hO; exact absurd hO (by simp)
  | cons x xs1 =>
    rw [scanRF_word_step hWord f hab] at hO
    obtain ⟨rfl, hO1⟩ : x = b ∧ scanRF m (f - 1) (some x) xs1 = c :: l2 := by
      simpa using hO
    cases xs1 with
    | nil => rw [scanRF_nilL] at hO1; exact absurd hO1 (by simp)
    | cons y xs2 =>
      rw [scanRF_word_step hWord (f - 1) hbc] at hO1
      obtain ⟨rfl, hO2⟩ : y = c ∧ scanRF m (f - 1 - 1) (some y) xs2 = l2 := by
        simpa using hO1
      exact ⟨xs2, rfl, by rw [← hO2, Nat.sub_sub]⟩

/-!
## Sanitizer idempotence: what the identifier and bare stages leave
-/

/-- The IPC-identifier stage leaves no occurrence that is left-open and
followed, after whitespace, by an identifier character. -/
theorem scan_ipcId_noLWC :
    ∀ (fuel : Nat) (p : Option Char) (l : List Char), l.length ≤ fuel →
      NoLWC p (scanRF ipcIdM fuel p l) := by
  intro fuel
  induction fuel with
  | zero =>
    intro p l hl
    have hnil : l = [] := List.length_eq_zero.mp (Nat.le_zero.mp hl)
    subst hnil
    exact occ_nil _ _
  | succ f ih =>
    intro p l hl
    cases l with
    | nil => rw [scanRF_nilL]; exact occ_nil _ _
    | cons x xs =>
      rw [List.length_cons] at hl
      cases hm : ipcIdM p (x :: xs) with
      | some r =>
        obtain ⟨out, lc, rest2⟩ := r
        obtain ⟨hout, hhead, a, b, c, rest, heq, hw, hi, hlen⟩ := ipcIdM_some_inv hm
        subst hout
        rw [scanRF_cons_some f hm, List.nil_append]
        have hlen2 : rest2.length ≤ f := by
          have h3 : (x :: xs).length = rest.length + 3 := by rw [heq]; simp
          rw [List.length_cons] at h3
          omega
        refine occ_changePrev ?_ (ih (some lc) rest2 hlen2)
        intro b2 c2 d2 l2 hO
        cases hr2 : rest2 with
        | nil => rw [hr2, scanRF_nilL] at hO; exact absurd hO (by simp)
        | cons y ys =>
          have hyc : isClassChar y = false := hhead y ys hr2
          rw [hr2, scanRF_cons_pred f (ipcIdM_none_nonclass hyc)] at hO
          obtain ⟨rfl, -⟩ : y = b2 ∧
              scanRF ipcIdM (f - 1) (some y) ys = c2 :: d2 :: l2 := by
            simpa using hO
          exact not_ipc3_head_nonclass hyc c2 d2
      | none =>
        rw [scanRF_cons_none f hm]
        refine occ_cons ?_ (ih (some x) xs (by omega))
        intro b2 c2 l2 hO hi
        by_cases hp : isWordO p = true
        · exact Or.inl hp
        right
        obtain ⟨cs2, hxs, hl2⟩ :=
          scanRF_expose2 (fun _ _ => ipcIdM_none_word) f
            (ipcFirst_word hi) (ipcSecond_word hi) hO
        subst hxs
        have hwp : isWordO p = false := by simpa using hp
        have hwtc : wsThenClass cs2 = false := ipcIdM_none_inv hm hwp hi
        rw [hl2]
        exact scan_pres_wtc (fun _ _ _ h => ipcIdM_none_nonclass h) (f - 2) (some c2) cs2 hwtc

/-- The bare-IPC stage leaves no occurrence that is both left-open and
right-bounded. -/
theorem scan_ipcBare_noBB :
    ∀ (fuel : Nat) (p : Option Char) (l : List Char), l.length ≤ fuel →
      NoBB p (scanRF ipcBareM fuel p l) := by
  intro fuel
  induction fuel with
  | zero =>
    intro p l hl
    have hnil : l = [] := List.length_eq_zero.mp (Nat.le_zero.mp hl)
    subst hnil
    exact occ_nil _ _
  | succ f ih =>
    intro p l hl
    cases l with
    | nil => rw [scanRF_nilL]; exact occ_nil _ _
    | cons x xs =>
      rw [List.length_cons] at hl
      cases hm : ipcBareM p (x :: xs) with
      | some r =>
        obtain ⟨out, lc, rest2⟩ := r
        obtain ⟨hout, hhw, a, b, heq, hw, hi⟩ := ipcBareM_some_inv hm
        subst hout
        rw [scanRF_cons_some f hm, List.nil_append]
        have hlen2 : rest2.length ≤ f := by
          have h3 : (x :: xs).length = rest2.length + 3 := by rw [heq]; simp
          rw [List.length_cons] at h3
          omega
        refine occ_changePrev ?_ (ih (some lc) rest2 hlen2)
        intro b2 c2 d2 l2 hO
        cases hr2 : rest2 with
        | nil => rw [hr2, scanRF_nilL] at hO; exact absurd hO (by simp)
        | cons y ys =>
          have hyw : isWordChar y = false := by
            rw [hr2] at hhw
            simpa [headWord] using hhw
          rw [hr2, scanRF_cons_pred f
            (ipcBareM_none_headNotIpc (not_ipc3_head_nonword hyw))] at hO
          obtain ⟨rfl, -⟩ : y = b2 ∧
              scanRF ipcBareM (f - 1) (some y) ys = c2 :: d2 :: l2 := by
            simpa using hO
          exact not_ipc3_head_nonword hyw c2 d2
      | none =>
        rw [scanRF_cons_none f hm]
        refine occ_cons ?_ (ih (some x) xs (by omega))
        intro b2 c2 l2 hO hi
        by_cases hp : isWordO p = true
        · exact Or.inl hp
        right
        obtain ⟨cs2, hxs, hl2⟩ :=
          scanRF_expose2 (fun _ _ => ipcBareM_none_word) f
            (ipcFirst_word hi) (ipcSecond_word hi) hO
        subst hxs
        have hwp : isWordO p = false := by simpa using hp
        have hhw : headWord cs2 = true := ipcBareM_none_inv hm hwp hi
        cases hcs : cs2 with
        | nil => rw [hcs] at hhw; simp [headWord] at hhw
        | cons w cs3 =>
          rw [hcs] at hl2
          rw [hl2, scanRF_word_step (fun _ _ => ipcBareM_none_word) (f - 2)
            (ipcThird_word hi)]
          rw [hcs] at hhw
          simpa [headWord] using hhw

/-- The bare-IPC stage preserves the guarantee of the identifier
stage. -/
theorem scan_ipcBare_pres_noLWC :
    ∀ (fuel : Nat) (p : Option Char) (l : List Char), NoLWC p l →
      NoLWC p (scanRF ipcBareM fuel p l) := by
  intro fuel
  induction fuel with
  | zero => intro p l h; exact h
  | succ f ih =>
    intro p l h
    cases l with
    | nil => rw [scanRF_nilL]; exact occ_nil _ _
    | cons x xs =>
      cases hm : ipcBareM p (x :: xs) with
      | some r =>
        obtain ⟨out, lc, rest2⟩ := r
        obtain ⟨hout, hhw, a, b, heq, hw, hi⟩ := ipcBareM_some_inv hm
        subst hout
        rw [scanRF_cons_some f hm, List.nil_append]
        obtain ⟨rfl, hxs⟩ : x = a ∧ xs = b :: lc :: rest2 := by simpa using heq
        have hrest : NoLWC (some lc) rest2 := by
          subst hxs
          exact occ_tail (occ_tail (occ_tail h))
        refine occ_changePrev ?_ (ih (some lc) rest2 hrest)
        intro b2 c2 d2 l2 hO
        cases hr2 : rest2 with
        | nil => rw [hr2, scanRF_nilL] at hO; exact absurd hO (by simp)
        | cons y ys =>
          have hyw : isWordChar y = false := by
            rw [hr2] at hhw
            simpa [headWord] using hhw
          rw [hr2, scanRF_cons_pred f
            (ipcBareM_none_headNotIpc (not_ipc3_head_nonword hyw))] at hO
          obtain ⟨rfl, -⟩ : y = b2 ∧
              scanRF ipcBareM (f - 1) (some y) ys = c2 :: d2 :: l2 := by
            simpa using hO
          exact not_ipc3_head_nonword hyw c2 d2
      | none =>
        rw [scanRF_cons_none f hm]
        refine occ_cons ?_ (ih (some x) xs (occ_tail h))
        intro b2 c2 l2 hO hi
        by_cases hp : isWordO p = true
        · exact Or.inl hp
        right
        obtain ⟨cs2, hxs, hl2⟩ :=
          scanRF_expose2 (fun _ _ => ipcBareM_none_word) f
            (ipcFirst_word hi) (ipcSecond_word hi) hO
        subst hxs
        rcases h [] x b2 c2 cs2 rfl hi with hb | hwtc
        · rw [show leftBlocked p [] = isWordO p from rfl] at hb
          exact absurd hb hp
        · rw [hl2]
          exact scan_pres_wtc (fun _ _ _ hc => ipcBareM_none_nonclass hc) (f - 2)
            (some c2) cs2 hwtc

/-!
## Sanitizer idempotence: the whitespace-collapsing stages
-/

theorem spaceRunM_some_inv {p : Option Char} {l out r2 : List Char} {lc : Char}
    (h : spaceRunM p l = some (out, lc, r2)) :
    out = [' '] ∧ lc = ' ' ∧ ∃ a b rest0, l = a :: b :: rest0 ∧ isSpaceTab a = true ∧
      isSpaceTab b = true ∧ r2 = rest0.dropWhile isSpaceTab := by
  cases l with
  | nil => exact absurd h (by simp [spaceRunM])
  | cons a l =>
    cases l with
    | nil => exact absurd h (by simp [spaceRunM])
    | cons b rest0 =>
      by_cases hc : (isSpaceTab a && isSpaceTab b) = true
      · rw [spaceRunM, if_pos hc] at h
        obtain ⟨h1, h2, h3⟩ : [' '] = out ∧ ' ' = lc ∧ rest0.dropWhile isSpaceTab = r2 := by
          simpa using h
        simp only [Bool.and_eq_true] at hc
        exact ⟨h1.symm, h2.symm, a, b, rest0, rfl, hc.1, hc.2, h3.symm⟩
      · rw [spaceRunM, if_neg hc] at h
        exact absurd h (by simp)

theorem spaceRunM_none_headNotSt {p : Option Char} {a : Char} {cs : List Char}
    (h : isSpaceTab a = false) : spaceRunM p (a :: cs) = none := by
  cases cs with
  | nil => rfl
  | cons b l => simp [spaceRunM, h]

theorem spaceRunM_none_inv {p : Option Char} {a b : Char} {cs : List Char}
    (h : spaceRunM p (a :: b :: cs) = none) :
    ¬(isSpaceTab a = true ∧ isSpaceTab b = true) := by
  rintro ⟨h1, h2⟩
  rw [spaceRunM, if_pos (by simp [h1, h2])] at h
  exact absurd h (by simp)

theorem nlRunM_some_inv {p : Option Char} {l out r2 : List Char} {lc : Char}
    (h : nlRunM p l = some (out, lc, r2)) :
    out = ['\n', '\n'] ∧ lc = '\n' ∧ ∃ rest0, l = '\n' :: '\n' :: '\n' :: rest0 ∧
      r2 = rest0.dropWhile (· = '\n') := by
  cases l with
  | nil => exact absurd h (by simp [nlRunM])
  | cons a l =>
    cases l with
    | nil => exact absurd h (by simp [nlRunM])
    | cons b l =>
      cases l with
      | nil => exact absurd h (by simp [nlRunM])
      | cons c rest0 =>
        by_cases hc : (a = '\n' && b = '\n' && c = '\n') = true
        · rw [nlRunM, if_pos hc] at h
          obtain ⟨h1, h2, h3⟩ : ['\n', '\n'] = out ∧ '\n' = lc ∧
              rest0.dropWhile (· = '\n') = r2 := by simpa using h
          simp only [Bool.and_eq_true, decide_eq_true_eq] at hc
          obtain ⟨⟨rfl, rfl⟩, rfl⟩ := hc
          exact ⟨h1.symm, h2.symm, rest0, rfl, h3.symm⟩
        · rw [nlRunM, if_neg hc] at h
          exact absurd h (by simp)

theorem nlRunM_none_headNotNl {p : Option Char} {a : Char} {cs : List Char}
    (h : a ≠ '\n') : nlRunM p (a :: cs) = none := by
  cases cs with
  | nil => rfl
  | cons b l =>
    cases l with
    | nil => rfl
    | cons c rest => simp [nlRunM, h]

theorem nlRunM_none_inv {p : Option Char} {a b c : Char} {cs : List Char}
    (h : nlRunM p (a :: b :: c :: cs) = none) :
    ¬(a = '\n' ∧ b = '\n' ∧ c = '\n') := by
  rintro ⟨rfl, rfl, rfl⟩
  rw [nlRunM, if_pos (by simp)] at h
  exact absurd h (by simp)

/-- One output character of a scan whose matcher only emits non-word
characters exposes the first input character when the output head is a
word character. -/
theorem scanRF_expose1_outHead {m : Option Char → List Char → Option MatchRes}
    (hOut : ∀ (p : Option Char) (l out r2 : List Char) (lc : Char),
      m p l = some (out, lc, r2) → ∃ z zs, out = z :: zs ∧ isWordChar z = false)
    {b : Char} {q : Option Char} {xs l2 : List Char} (f : Nat)
    (hb : isWordChar b = true) (hO : scanRF m f q xs = b :: l2) :
    ∃ cs2, xs = b :: cs2 ∧ l2 = scanRF m (f - 1) (some b) cs2 := by
  cases xs with
  | nil => rw [scanRF_nilL] at hO; exact absurd hO (by simp)
  | cons z zs =>
    cases f with
    | zero =>
      obtain ⟨rfl, rfl⟩ : z = b ∧ zs = l2 := by simpa [scanRF] using hO
      exact ⟨zs, rfl, rfl⟩
    | succ f1 =>
      cases hm : m q (z :: zs) with
      | some r =>
        obtain ⟨out, lc, r2⟩ := r
        obtain ⟨w, ws, rfl, hww⟩ := hOut q (z :: zs) out r2 lc hm
        rw [scanRF_cons_some f1 hm] at hO
        obtain ⟨rfl, -⟩ : w = b ∧ ws ++ scanRF m f1 (some lc) r2 = l2 := by
          simpa using hO
        rw [hww] at hb
        exact absurd hb (by simp)
      | none =>
        rw [scanRF_cons_none f1 hm] at hO
        obtain ⟨rfl, h2⟩ : z = b ∧ scanRF m f1 (some z) zs = l2 := by simpa using hO
        exact ⟨zs, rfl, by simpa using h2.symm⟩

/-- Two output characters of such a scan expose the first two input
characters. -/
theorem scanRF_expose2_outHead {m : Option Char → List Char → Option MatchRes}
    (hOut : ∀ (p : Option Char) (l out r2 : List Char) (lc : Char),
      m p l = some (out, lc, r2) → ∃ z zs, out = z :: zs ∧ isWordChar z = false)
    {b c : Char} {q : Option Char} {xs l2 : List Char} (f : Nat)
    (hb : isWordChar b = true) (hc : isWordChar c = true)
    (hO : scanRF m f q xs = b :: c :: l2) :
    ∃ cs2, xs = b :: c :: cs2 ∧ l2 = scanRF m (f - 2) (some c) cs2 := by
  obtain ⟨cs1, hxs1, hl1⟩ := scanRF_expose1_outHead hOut f hb hO
  obtain ⟨cs2, hxs2, hl2⟩ := scanRF_expose1_outHead hOut (f - 1) hc hl1.symm
  exact ⟨cs2, by rw [hxs1, hxs2], by rw [hl2, Nat.sub_sub]⟩

/-- Dropping a run of non-word characters preserves an occurrence
property across any non-word context. -/
theorem occ_dropWhile_nonword {R : List Char → Prop} (q : Char → Bool)
    (hq : ∀ x, q x = true → isWordChar x = false) :
    ∀ {l : List Char} {p : Option Char}, isWordO p = false → OccProp R p l →
      ∀ p2 : Option Char, isWordO p2 = false → OccProp R p2 (l.dropWhile q) := by
  intro l
  induction l with
  | nil => intro p _ _ p2 _; rw [List.dropWhile_nil]; exact occ_nil _ _
  | cons a as ih =>
    intro p hp h p2 hp2
    by_cases ha : q a = true
    · rw [List.dropWhile_cons, if_pos ha]
      exact ih (by simp [isWordO, hq a ha]) (occ_tail h) p2 hp2
    · rw [List.dropWhile_cons, if_neg ha]
      exact occ_congrPrev (by rw [hp, hp2]) h

theorem spaceRun_outHead :
    ∀ (p : Option Char) (l out r2 : List Char) (lc : Char),
      spaceRunM p l = some (out, lc, r2) → ∃ z zs, out = z :: zs ∧ isWordChar z = false := by
  intro p l out r2 lc h
  obtain ⟨rfl, -⟩ := spaceRunM_some_inv h
  exact ⟨' ', [], rfl, by decide⟩

theorem nlRun_outHead :
    ∀ (p : Option Char) (l out r2 : List Char) (lc : Char),
      nlRunM p l = some (out, lc, r2) → ∃ z zs, out = z :: zs ∧ isWordChar z = false := by
  intro p l out r2 lc h
  obtain ⟨rfl, -⟩ := nlRunM_some_inv h
  exact ⟨'\n', ['\n'], rfl, by decide⟩

/-- The space-run stage preserves inertness of the occurrences. -/
theorem scan_spaceRun_pres_safe :
    ∀ (fuel : Nat) (p : Option Char) (l : List Char), SafeIpc p l →
      SafeIpc p (scanRF spaceRunM fuel p l) := by
  intro fuel
  induction fuel with
  | zero => intro p l h; exact h
  | succ f ih =>
    intro p l h
    cases l with
    | nil => rw [scanRF_nilL]; exact occ_nil _ _
    | cons x xs =>
      cases hm : spaceRunM p (x :: xs) with
      | some r =>
        obtain ⟨out, lc, r2⟩ := r
        obtain ⟨hout, hlc, a, b, rest0, heq, hsa, hsb, hr2⟩ := spaceRunM_some_inv hm
        subst hout; subst hlc
        rw [scanRF_cons_some f hm]
        obtain ⟨rfl, hxs⟩ : x = a ∧ xs = b :: rest0 := by simpa using heq
        have h1 : SafeIpc (some b) rest0 := by
          subst hxs
          exact occ_tail (occ_tail h)
        have h2 : SafeIpc (some ' ') r2 := by
          rw [hr2]
          exact occ_dropWhile_nonword isSpaceTab (fun y hy => st_not_word hy)
            (by simp [isWordO, st_not_word hsb]) h1 (some ' ') (by decide)
        refine occ_cons ?_ (ih (some ' ') r2 h2)
        intro b2 c2 l2 _ hi
        rw [not_ipc3_head_nonword (by decide) b2 c2] at hi
        exact absurd hi (by simp)
      | none =>
        rw [scanRF_cons_none f hm]
        refine occ_cons ?_ (ih (some x) xs (occ_tail h))
        intro b2 c2 l2 hO hi
        by_cases hp : isWordO p = true
        · exact Or.inl hp
        right
        obtain ⟨cs2, hxs, hl2⟩ := scanRF_expose2_outHead spaceRun_outHead f
          (ipcSecond_word hi) (ipcThird_word hi) hO
        subst hxs
        rcases h [] x b2 c2 cs2 rfl hi with hb | hu
        · exact absurd (by simpa [leftBlocked, prevCtx] using hb) hp
        · cases hcs : cs2 with
          | nil => rw [hcs] at hu; simp [headIs] at hu
          | cons u cs3 =>
            rw [hcs] at hu hl2
            obtain rfl : u = '_' := by simpa [headIs] using hu
            rw [hl2, scanRF_cons_pred (f - 2) (spaceRunM_none_headNotSt (by decide))]
            simp [headIs]

/-- The newline-run stage preserves inertness of the occurrences. -/
theorem scan_nlRun_pres_safe :
    ∀ (fuel : Nat) (p : Option Char) (l : List Char), SafeIpc p l →
      SafeIpc p (scanRF nlRunM fuel p l) := by
  intro fuel
  induction fuel with
  | zero => intro p l h; exact h
  | succ f ih =>
    intro p l h
    cases l with
    | nil => rw [scanRF_nilL]; exact occ_nil _ _
    | cons x xs =>
      cases hm : nlRunM p (x :: xs) with
      | some r =>
        obtain ⟨out, lc, r2⟩ := r
        obtain ⟨hout, hlc, rest0, heq, hr2⟩ := nlRunM_some_inv hm
        subst hout; subst hlc
        rw [scanRF_cons_some f hm]
        obtain ⟨rfl, hxs⟩ : x = '\n' ∧ xs = '\n' :: '\n' :: rest0 := by simpa using heq
        have h1 : SafeIpc (some '\n') rest0 := by
          subst hxs
          exact occ_tail (occ_tail (occ_tail h))
        have h2 : SafeIpc (some '\n') r2 := by
          rw [hr2]
          refine occ_dropWhile_nonword (· = '\n') ?_ (by decide) h1 (some '\n') (by decide)
          intro y hy
          obtain rfl : y = '\n' := by simpa using hy
          decide
        have h3 : SafeIpc (some '\n') ('\n' :: scanRF nlRunM f (some '\n') r2) := by
          refine occ_cons ?_ (ih (some '\n') r2 h2)
          intro b2 c2 l2 _ hi
          rw [not_ipc3_head_nonword (by decide) b2 c2] at hi
          exact absurd hi (by simp)
        refine occ_cons ?_ h3
        intro b2 c2 l2 hO hi
        rw [not_ipc3_head_nonword (by decide) b2 c2] at hi
        exact absurd hi (by simp)
      | none =>
        rw [scanRF_cons_none f hm]
        refine occ_cons ?_ (ih (some x) xs (occ_tail h))
        intro b2 c2 l2 hO hi
        by_cases hp : isWordO p = true
        · exact Or.inl hp
        right
        obtain ⟨cs2, hxs, hl2⟩ := scanRF_expose2_outHead nlRun_outHead f
          (ipcSecond_word hi) (ipcThird_word hi) hO
        subst hxs
        rcases h [] x b2 c2 cs2 rfl hi with hb | hu
        · exact absurd (by simpa [leftBlocked, prevCtx] using hb) hp
        · cases hcs : cs2 with
          | nil => rw [hcs] at hu; simp [headIs] at hu
          | cons u cs3 =>
            rw [hcs] at hu hl2
            obtain rfl : u = '_' := by simpa [headIs] using hu
            rw [hl2, scanRF_cons_pred (f - 2) (nlRunM_none_headNotNl (by decide))]
            simp [headIs]

theorem noDbl_nil : NoDbl [] := by
  intro l1 a b l2 h
  cases l1 <;> simp at h

theorem noDbl_tail {x : Char} {l : List Char} (h : NoDbl (x :: l)) : NoDbl l := by
  intro l1 a b l2 hd
  exact h (x :: l1) a b l2 (by rw [hd]; rfl)

theorem noDbl_cons {x : Char} {l : List Char}
    (hHead : ∀ y ys, l = y :: ys → ¬(isSpaceTab x = true ∧ isSpaceTab y = true))
    (h : NoDbl l) : NoDbl (x :: l) := by
  intro l1 a b l2 hd
  cases l1 with
  | nil =>
    obtain ⟨rfl, hl⟩ : x = a ∧ l = b :: l2 := by simpa using hd
    exact hHead b l2 hl
  | cons y l1p =>
    obtain ⟨rfl, hl⟩ : x = y ∧ l = l1p ++ a :: b :: l2 := by simpa using hd
    exact h l1p a b l2 hl

theorem noDbl_dropWhile (q : Char → Bool) {l : List Char} (h : NoDbl l) :
    NoDbl (l.dropWhile q) := by
  induction l with
  | nil => simpa using h
  | cons a as ih =>
    rw [List.dropWhile_cons]
    split
    · exact ih (noDbl_tail h)
    · exact h

theorem noTri_nil : NoTri [] := by
  intro l1 l2 h
  cases l1 <;> simp at h

theorem noTri_tail {x : Char} {l : List Char} (h : NoTri (x :: l)) : NoTri l := by
  intro l1 l2 hd
  exact h (x :: l1) l2 (by rw [hd]; rfl)

theorem noTri_cons {x : Char} {l : List Char}
    (hHead : ∀ zs, l = '\n' :: '\n' :: zs → x = '\n' → False)
    (h : NoTri l) : NoTri (x :: l) := by
  intro l1 l2 hd
  cases l1 with
  | nil =>
    obtain ⟨rfl, hl⟩ : x = '\n' ∧ l = '\n' :: '\n' :: l2 := by simpa using hd
    exact hHead l2 hl rfl
  | cons y l1p =>
    obtain ⟨rfl, hl⟩ : x = y ∧ l = l1p ++ '\n' :: '\n' :: '\n' :: l2 := by simpa using hd
    exact h l1p l2 hl

theorem noTri_dropWhile (q : Char → Bool) {l : List Char} (h : NoTri l) :
    NoTri (l.dropWhile q) := by
  induction l with
  | nil => simpa using h
  | cons a as ih =>
    rw [List.dropWhile_cons]
    split
    · exact ih (noTri_tail h)
    · exact h

/-- The space-run stage leaves no pair of adjacent spaces or tabs. -/
theorem scan_spaceRun_noDbl :
    ∀ (fuel : Nat) (p : Option Char) (l : List Char), l.length ≤ fuel →
      NoDbl (scanRF spaceRunM fuel p l) := by
  intro fuel
  induction fuel with
  | zero =>
    intro p l hl
    have hnil : l = [] := List.length_eq_zero.mp (Nat.le_zero.mp hl)
    subst hnil
    exact noDbl_nil
  | succ f ih =>
    intro p l hl
    cases l with
    | nil => rw [scanRF_nilL]; exact noDbl_nil
    | cons x xs =>
      rw [List.length_cons] at hl
      cases hm : spaceRunM p (x :: xs) with
      | some r =>
        obtain ⟨out, lc, r2⟩ := r
        obtain ⟨hout, hlc, a, b, rest0, heq, hsa, hsb, hr2⟩ := spaceRunM_some_inv hm
        subst hout; subst hlc
        rw [scanRF_cons_some f hm]
        have hlen2 : r2.length ≤ f := by
          have h3 : (x :: xs).length = rest0.length + 2 := by rw [heq]; simp
          rw [List.length_cons] at h3
          have h4 := lengthDropWhileLe isSpaceTab rest0
          rw [← hr2] at h4
          omega
        refine noDbl_cons ?_ (ih (some ' ') r2 hlen2)
        intro y ys hO2
        rintro ⟨-, h2⟩
        cases hr : r2 with
        | nil => rw [hr, scanRF_nilL] at hO2; exact absurd hO2 (by simp)
        | cons z zs =>
          have hz : isSpaceTab z = false := dropWhile_head_false (hr2.symm.trans hr)
          rw [hr, scanRF_cons_pred f (spaceRunM_none_headNotSt hz)] at hO2
          obtain ⟨rfl, -⟩ : z = y ∧
              scanRF spaceRunM (f - 1) (some z) zs = ys := by simpa using hO2
          rw [hz] at h2
          exact absurd h2 (by simp)
      | none =>
        rw [scanRF_cons_none f hm]
        refine noDbl_cons ?_ (ih (some x) xs (by omega))
        intro y ys hO2
        rintro ⟨h1, h2⟩
        cases hxs : xs with
        | nil => rw [hxs, scanRF_nilL] at hO2; exact absurd hO2 (by simp)
        | cons z zs =>
          by_cases hz : isSpaceTab z = true
          · exact spaceRunM_none_inv (hxs ▸ hm) ⟨h1, hz⟩
          · have hznot : isSpaceTab z = false := by simpa using hz
            rw [hxs, scanRF_cons_pred f (spaceRunM_none_headNotSt hznot)] at hO2
            obtain ⟨rfl, -⟩ : z = y ∧
                scanRF spaceRunM (f - 1) (some z) zs = ys := by simpa using hO2
            rw [hznot] at h2
            exact absurd h2 (by simp)

/-- The newline-run stage preserves the absence of adjacent spaces and
tabs. -/
theorem scan_nlRun_pres_noDbl :
    ∀ (fuel : Nat) (p : Option Char) (l : List Char), NoDbl l →
      NoDbl (scanRF nlRunM fuel p l) := by
  intro fuel
  induction fuel with
  | zero => intro p l h; exact h
  | succ f ih =>
    intro p l h
    cases l with
    | nil => rw [scanRF_nilL]; exact noDbl_nil
    | cons x xs =>
      cases hm : nlRunM p (x :: xs) with
      | some r =>
        obtain ⟨out, lc, r2⟩ := r
        obtain ⟨hout, hlc, rest0, heq, hr2⟩ := nlRunM_some_inv hm
        subst hout; subst hlc
        rw [scanRF_cons_some f hm]
        obtain ⟨rfl, hxs⟩ : x = '\n' ∧ xs = '\n' :: '\n' :: rest0 := by simpa using heq
        have hrest : NoDbl r2 := by
          rw [hr2]
          refine noDbl_dropWhile _ ?_
          subst hxs
          exact noDbl_tail (noDbl_tail (noDbl_tail h))
        refine noDbl_cons (fun y ys _ => ?_) (noDbl_cons (fun y ys _ => ?_) (ih _ r2 hrest))
        · rintro ⟨h1, -⟩; exact absurd h1 (by decide)
        · rintro ⟨h1, -⟩; exact absurd h1 (by decide)
      | none =>
        rw [scanRF_cons_none f hm]
        refine noDbl_cons ?_ (ih (some x) xs (noDbl_tail h))
        intro y ys hO2
        rintro ⟨h1, h2⟩
        cases hxs : xs with
        | nil => rw [hxs, scanRF_nilL] at hO2; exact absurd hO2 (by simp)
        | cons z zs =>
          cases f with
          | zero =>
            rw [hxs] at hO2
            obtain ⟨rfl, -⟩ : z = y ∧ zs = ys := by simpa [scanRF] using hO2
            exact h [] x z zs (by simp [hxs]) ⟨h1, h2⟩
          | succ f1 =>
            cases hm2 : nlRunM (some x) (z :: zs) with
            | some r =>
              obtain ⟨out, lc, r2⟩ := r
              obtain ⟨hout, -, rest0, -, -⟩ := nlRunM_some_inv hm2
              subst hout
              rw [hxs, scanRF_cons_some f1 hm2] at hO2
              obtain ⟨rfl, -⟩ : ('\n' : Char) = y ∧
                  '\n' :: scanRF nlRunM f1 (some lc) r2 = ys := by simpa using hO2
              exact absurd h2 (by decide)
            | none =>
              rw [hxs, scanRF_cons_none f1 hm2] at hO2
              obtain ⟨rfl, -⟩ : z = y ∧
                  scanRF nlRunM f1 (some z) zs = ys := by simpa using hO2
              exact h [] x z zs (by simp [hxs]) ⟨h1, h2⟩

/-- The newline-run stage leaves no three adjacent newlines. -/
theorem scan_nlRun_noTri :
    ∀ (fuel : Nat) (p : Option Char) (l : List Char), l.length ≤ fuel →
      NoTri (scanRF nlRunM fuel p l) := by
  intro fuel
  induction fuel with
  | zero =>
    intro p l hl
    have hnil : l = [] := List.length_eq_zero.mp (Nat.le_zero.mp hl)
    subst hnil
    exact noTri_nil
  | succ f ih =>
    intro p l hl
    cases l with
    | nil => rw [scanRF_nilL]; exact noTri_nil
    | cons x xs =>
      rw [List.length_cons] at hl
      cases hm : nlRunM p (x :: xs) with
      | some r =>
        obtain ⟨out, lc, r2⟩ := r
        obtain ⟨hout, hlc, rest0, heq, hr2⟩ := nlRunM_some_inv hm
        subst hout; subst hlc
        rw [scanRF_cons_some f hm]
        have hlen2 : r2.length ≤ f := by
          have h3 : (x :: xs).length = rest0.length + 3 := by rw [heq]; simp
          rw [List.length_cons] at h3
          have h4 := lengthDropWhileLe (· = '\n') rest0
          rw [← hr2] at h4
          omega
        have hO2head : ∀ y ys, scanRF nlRunM f (some '\n') r2 = y :: ys → y ≠ '\n' := by
          intro y ys hO2 hy
          subst hy
          cases hr : r2 with
          | nil => rw [hr, scanRF_nilL] at hO2; exact absurd hO2 (by simp)
          | cons z zs =>
            have hz : (fun c => decide (c = '\n')) z = false :=
              dropWhile_head_false (hr2.symm.trans hr)
            have hz2 : z ≠ '\n' := by simpa using hz
            rw [hr, scanRF_cons_pred f (nlRunM_none_headNotNl hz2)] at hO2
            obtain ⟨rfl, -⟩ : z = '\n' ∧
                scanRF nlRunM (f - 1) (some z) zs = ys := by simpa using hO2
            exact hz2 rfl
        refine noTri_cons (fun zs hz _ => ?_)
          (noTri_cons (fun zs hz _ => ?_) (ih (some '\n') r2 hlen2))
        · exact hO2head '\n' zs (by simpa using hz) rfl
        · exact hO2head '\n' ('\n' :: zs) hz rfl
      | none =>
        rw [scanRF_cons_none f hm]
        refine noTri_cons ?_ (ih (some x) xs (by omega))
        intro zs hO2 hx
        subst hx
        cases hxs : xs with
        | nil => rw [hxs, scanRF_nilL] at hO2; exact absurd hO2 (by simp)
        | cons w ws =>
          cases f with
          | zero =>
            rw [hxs] at hO2
            obtain ⟨rfl, h2⟩ : w = '\n' ∧ ws = '\n' :: zs := by simpa [scanRF] using hO2
            refine absurd hm ?_
            rw [hxs, h2]
            rw [nlRunM, if_pos (by simp)]
            simp
          | succ f1 =>
            cases hm2 : nlRunM (some '\n') (w :: ws) with
            | some r =>
              obtain ⟨out, lc, r2⟩ := r
              obtain ⟨-, -, rest0, heq2, -⟩ := nlRunM_some_inv hm2
              refine absurd hm ?_
              rw [hxs, heq2]
              rw [nlRunM, if_pos (by simp)]
              simp
            | none =>
              rw [hxs, scanRF_cons_none f1 hm2] at hO2
              obtain ⟨rfl, h2⟩ : w = '\n' ∧
                  scanRF nlRunM f1 (some w) ws = '\n' :: zs := by simpa using hO2
              cases hws : ws with
              | nil => rw [hws, scanRF_nilL] at h2; exact absurd h2 (by simp)
              | cons v vs =>
                cases f1 with
                | zero =>
                  rw [hws] at h2
                  obtain ⟨rfl, -⟩ : v = '\n' ∧ vs = zs := by simpa [scanRF] using h2
                  refine absurd hm ?_
                  rw [hxs, hws]
                  rw [nlRunM, if_pos (by simp)]
                  simp
                | succ f2 =>
                  cases hm3 : nlRunM (some '\n') (v :: vs) with
                  | some r =>
                    obtain ⟨out, lc, r2⟩ := r
                    obtain ⟨-, -, rest0, heq3, -⟩ := nlRunM_some_inv hm3
                    refine absurd hm2 ?_
                    rw [hws, heq3]
                    rw [nlRunM, if_pos (by simp)]
                    simp
                  | none =>
                    rw [hws, scanRF_cons_none f2 hm3] at h2
                    obtain ⟨rfl, -⟩ : v = '\n' ∧
                        scanRF nlRunM f2 (some v) vs = zs := by simpa using h2
                    refine absurd hm ?_
                    rw [hxs, hws]
                    rw [nlRunM, if_pos (by simp)]
                    simp

/-!
## Sanitizer idempotence: trim
-/

theorem mem_takeWhile_pred (q : Char → Bool) :
    ∀ {l : List Char} {x : Char}, x ∈ l.takeWhile q → q x = true := by
  intro l
  induction l with
  | nil => intro x h; simp at h
  | cons a as ih =>
    intro x h
    rw [List.takeWhile_cons] at h
    by_cases ha : q a = true
    · rw [if_pos ha] at h
      rcases List.mem_cons.mp h with rfl | h2
      · exact ha
      · exact ih h2
    · rw [if_neg ha] at h
      simp at h

/-- The trailing trim splits the text into its result and a whitespace
suffix. -/
theorem trimTrail_spec (l : List Char) :
    ∃ w, l = trimTrailL l ++ w ∧ ∀ x ∈ w, isWsChar x = true := by
  refine ⟨(l.reverse.takeWhile isWsChar).reverse, ?_, ?_⟩
  · conv_lhs => rw [← l.reverse_reverse,
      ← List.takeWhile_append_dropWhile (p := isWsChar) (l := l.reverse)]
    rw [List.reverse_append]
    rfl
  · intro x hx
    rw [List.mem_reverse] at hx
    exact mem_takeWhile_pred _ hx

theorem safe_trimTrail {p : Option Char} {l : List Char} (h : SafeIpc p l) :
    SafeIpc p (trimTrailL l) := by
  obtain ⟨w, hw, hmem⟩ := trimTrail_spec l
  intro l1 a b c l2 hd hi
  have hdec : l = l1 ++ a :: b :: c :: (l2 ++ w) := by rw [hw, hd]; simp
  rcases h l1 a b c (l2 ++ w) hdec hi with hb | hu
  · exact Or.inl hb
  · right
    cases l2 with
    | nil =>
      cases hww : w with
      | nil => rw [hww] at hu; simp [headIs] at hu
      | cons u us =>
        rw [hww] at hu
        obtain rfl : u = '_' := by simpa [headIs] using hu
        have hm := hmem '_' (by rw [hww]; exact List.mem_cons_self _ _)
        exact absurd hm (by decide)
    | cons y ys => simpa [headIs] using hu

theorem noDbl_trimTrail {l : List Char} (h : NoDbl l) : NoDbl (trimTrailL l) := by
  obtain ⟨w, hw, -⟩ := trimTrail_spec l
  intro l1 a b l2 hd
  exact h l1 a b (l2 ++ w) (by rw [hw, hd]; simp)

theorem noTri_trimTrail {l : List Char} (h : NoTri l) : NoTri (trimTrailL l) := by
  obtain ⟨w, hw, -⟩ := trimTrail_spec l
  intro l1 l2 hd
  exact h l1 (l2 ++ w) (by rw [hw, hd]; simp)

theorem dropWhile_idem (q : Char → Bool) (l : List Char) :
    (l.dropWhile q).dropWhile q = l.dropWhile q := by
  cases hd : l.dropWhile q with
  | nil => rfl
  | cons y ys =>
    rw [List.dropWhile_cons, if_neg (by simp [dropWhile_head_false hd])]

theorem trimTrail_idem (l : List Char) : trimTrailL (trimTrailL l) = trimTrailL l := by
  unfold trimTrailL
  rw [List.reverse_reverse, dropWhile_idem]

theorem trimLead_of_headNotWs {l : List Char}
    (h : ∀ y ys, l = y :: ys → isWsChar y = false) : trimLeadL l = l := by
  cases l with
  | nil => rfl
  | cons y ys =>
    rw [trimLeadL, List.dropWhile_cons, if_neg (by simp [h y ys rfl])]

theorem trimL_idem (l : List Char) : trimL (trimL l) = trimL l := by
  unfold trimL
  have hhead : ∀ y ys, trimLeadL l = y :: ys → isWsChar y = false := by
    intro y ys hy
    exact dropWhile_head_false hy
  have h1 : trimLeadL (trimTrailL (trimLeadL l)) = trimTrailL (trimLeadL l) := by
    apply trimLead_of_headNotWs
    intro y ys hy
    obtain ⟨w, hw, -⟩ := trimTrail_spec (trimLeadL l)
    exact hhead y (ys ++ w) (by rw [hw, hy]; simp)
  rw [h1, trimTrail_idem]

/-!
## Sanitizer idempotence: inert texts are fixed points of each stage
-/

/-- A bounded token in a parenthetical content yields an explicit
decomposition with its boundary facts. -/
theorem hasBddIpc_spec :
    ∀ {content : List Char} {pc : Char}, hasBddIpc pc content = true →
      ∃ c1 a b c c2, content = c1 ++ a :: b :: c :: c2 ∧ isIpc3 a b c = true ∧
        isWordO (prevCtx (some pc) c1) = false ∧ headWord c2 = false := by
  intro content
  induction content with
  | nil => intro pc h; simp [hasBddIpc] at h
  | cons a rest ih =>
    intro pc h
    cases rest with
    | nil => simp [hasBddIpc] at h
    | cons b rest2 =>
      cases rest2 with
      | nil => simp [hasBddIpc] at h
      | cons c rest3 =>
        rw [hasBddIpc] at h
        rcases Bool.or_eq_true_iff.mp h with hc | hrec
        · simp only [Bool.and_eq_true, Bool.not_eq_true'] at hc
          exact ⟨[], a, b, c, rest3, rfl, hc.1.2,
            by simp [prevCtx, isWordO, hc.1.1], hc.2⟩
        · obtain ⟨c1, x, y, z, c2, hdec, hi, hpw, hh⟩ := ih hrec
          exact ⟨a :: c1, x, y, z, c2, by rw [hdec]; rfl,
            hi, by rwa [prevCtx_cons], hh⟩

/-- An inert text admits no parenthetical match. -/
theorem ipcParenM_none_safe :
    ∀ (p : Option Char) (l : List Char), SafeIpc p l → ipcParenM p l = none := by
  intro p l h
  cases l with
  | nil => rfl
  | cons c0 r =>
    by_cases h0 : c0 = '('
    · subst h0
      rw [ipcParenM, if_pos rfl]
      cases hrem : r.dropWhile notParen with
      | nil => simp
      | cons c1 rest =>
        by_cases h1 : c1 = ')'
        · subst h1
          cases hb : hasBddIpc '(' (r.takeWhile notParen) with
          | false => simp [hb]
          | true =>
            exfalso
            obtain ⟨c1s, a, b, c, c2, hdec, hi, hpw, hh⟩ := hasBddIpc_spec hb
            have hr : r = (r.takeWhile notParen) ++ ')' :: rest := by
              conv_lhs => rw [← List.takeWhile_append_dropWhile (p := notParen) (l := r)]
              rw [hrem]
            have hl : ('(' :: r) = ('(' :: c1s) ++ a :: b :: c :: (c2 ++ ')' :: rest) := by
              rw [hr, hdec]
              simp
            rcases h ('(' :: c1s) a b c (c2 ++ ')' :: rest) hl hi with hblk | hund
            · rw [leftBlocked_cons] at hblk
              simp only [leftBlocked] at hblk
              rw [hpw] at hblk
              exact absurd hblk (by simp)
            · cases hc2 : c2 with
              | nil =>
                rw [hc2] at hund
                simp [headIs] at hund
              | cons w ws =>
                rw [hc2] at hund hh
                obtain rfl : w = '_' := by simpa [headIs] using hund
                have hw2 : isWordChar '_' = false := by simpa [headWord] using hh
                exact absurd hw2 (by decide)
        · simp [h1]
    · rw [ipcParenM, if_neg h0]

/-- An inert text admits no IPC-Section match. -/
theorem ipcSectionM_none_safe :
    ∀ (p : Option Char) (l : List Char), SafeIpc p l → ipcSectionM p l = none := by
  intro p l h
  cases l with
  | nil => rfl
  | cons a l =>
    cases l with
    | nil => rfl
    | cons b l =>
      cases l with
      | nil => rfl
      | cons c rest =>
        by_cases hw : isWordO p = true
        · exact ipcSectionM_none_word hw
        by_cases hi : isIpc3 a b c = true
        · rcases h [] a b c rest rfl hi with hb | hu
          · exact absurd (by simpa [leftBlocked, prevCtx] using hb) hw
          · cases rest with
            | nil => simp [headIs] at hu
            | cons u us =>
              obtain rfl : u = '_' := by simpa [headIs] using hu
              have hwf : isWordO p = false := by simpa using hw
              rw [ipcSectionM, if_pos (by simp [hwf, hi])]
              rw [List.dropWhile_cons,
                if_neg (by simp [(by decide : isWsChar '_' = false)])]
              rw [show matchLitCI ['s','e','c','t','i','o','n'] ('_' :: us) = none by
                simp [matchLitCI, (by decide : eqCI 's' '_' = false)]]
        · have hi2 : isIpc3 a b c = false := by simpa using hi
          simp [ipcSectionM, hi2]

/-- An inert text admits no IPC-identifier match. -/
theorem ipcIdM_none_safe :
    ∀ (p : Option Char) (l : List Char), SafeIpc p l → ipcIdM p l = none := by
  intro p l h
  cases l with
  | nil => rfl
  | cons a l =>
    cases l with
    | nil => rfl
    | cons b l =>
      cases l with
      | nil => rfl
      | cons c rest =>
        by_cases hw : isWordO p = true
        · exact ipcIdM_none_word hw
        by_cases hi : isIpc3 a b c = true
        · rcases h [] a b c rest rfl hi with hb | hu
          · exact absurd (by simpa [leftBlocked, prevCtx] using hb) hw
          · cases rest with
            | nil => simp [headIs] at hu
            | cons u us =>
              obtain rfl : u = '_' := by simpa [headIs] using hu
              have hwf : isWordO p = false := by simpa using hw
              rw [ipcIdM, if_pos (by simp [hwf, hi])]
              rw [List.dropWhile_cons,
                if_neg (by simp [(by decide : isWsChar '_' = false)])]
              simp [List.takeWhile_cons,
                (by decide : isClassChar '_' = false)]
        · have hi2 : isIpc3 a b c = false := by simpa using hi
          simp [ipcIdM, hi2]

/-- An inert text admits no bare-IPC match. -/
theorem ipcBareM_none_safe :
    ∀ (p : Option Char) (l : List Char), SafeIpc p l → ipcBareM p l = none := by
  intro p l h
  cases l with
  | nil => rfl
  | cons a l =>
    cases l with
    | nil => rfl
    | cons b l =>
      cases l with
      | nil => rfl
      | cons c rest =>
        by_cases hw : isWordO p = true
        · exact ipcBareM_none_word hw
        by_cases hi : isIpc3 a b c = true
        · rcases h [] a b c rest rfl hi with hb | hu
          · exact absurd (by simpa [leftBlocked, prevCtx] using hb) hw
          · cases rest with
            | nil => simp [headIs] at hu
            | cons u us =>
              obtain rfl : u = '_' := by simpa [headIs] using hu
              rw [ipcBareM,
                if_neg (by simp [headWord, (by decide : isWordChar '_' = true)])]
        · have hi2 : isIpc3 a b c = false := by simpa using hi
          simp [ipcBareM, hi2]

/-- A text with no adjacent spaces admits no space-run match. -/
theorem spaceRunM_none_noDbl :
    ∀ (p : Option Char) (l : List Char), NoDbl l → spaceRunM p l = none := by
  intro p l h
  cases l with
  | nil => rfl
  | cons a l =>
    cases l with
    | nil => rfl
    | cons b rest =>
      rw [spaceRunM, if_neg]
      intro hc
      simp only [Bool.and_eq_true] at hc
      exact h [] a b rest rfl hc

/-- A text with no three adjacent newlines admits no newline-run
match. -/
theorem nlRunM_none_noTri :
    ∀ (p : Option Char) (l : List Char), NoTri l → nlRunM p l = none := by
  intro p l h
  cases l with
  | nil => rfl
  | cons a l =>
    cases l with
    | nil => rfl
    | cons b l =>
      cases l with
      | nil => rfl
      | cons c rest =>
        rw [nlRunM, if_neg]
        intro hc
        simp only [Bool.and_eq_true, decide_eq_true_eq] at hc
        obtain ⟨⟨rfl, rfl⟩, rfl⟩ := hc
        exact h [] rest rfl

/-- Together the identifier and bare stages leave every occurrence
inert: blocked on the left or followed by an underscore. -/
theorem safe_of_noLWC_noBB {p : Option Char} {l : List Char}
    (h1 : NoLWC p l) (h2 : NoBB p l) : SafeIpc p l := by
  intro l1 a b c l2 hd hi
  rcases h2 l1 a b c l2 hd hi with hb | hw
  · exact Or.inl hb
  rcases h1 l1 a b c l2 hd hi with hb | hwtc
  · exact Or.inl hb
  right
  cases l2 with
  | nil => simp [headWord] at hw
  | cons w ws =>
    have hww : isWordChar w = true := by simpa [headWord] using hw
    have hnws : isWsChar w = false := word_not_ws hww
    have hcl : isClassChar w = false := by
      simpa [wsThenClass, List.dropWhile_cons, hnws, headClass] using hwtc
    simp [headIs, word_not_class_underscore hww hcl]

/-- The sanitizer on character lists is idempotent: its output is
inert for all four token stages, free of doubled spaces and tripled
newlines, and already trimmed, so a second pass changes nothing. -/
theorem stripIpcMentionsL_idem (l : List Char) :
    stripIpcMentionsL (stripIpcMentionsL l) = stripIpcMentionsL l := by
  unfold stripIpcMentionsL
  set y1 := runScan ipcParenM none l with hy1
  set y2 := runScan ipcSectionM none y1 with hy2
  set y3 := runScan ipcIdM none y2 with hy3
  set y4 := runScan ipcBareM none y3 with hy4
  set y5 := runScan spaceRunM none y4 with hy5
  set y6 := runScan nlRunM none y5 with hy6
  set t := trimL y6 with ht
  have h3 : NoLWC none y3 := by
    rw [hy3, runScan]; exact scan_ipcId_noLWC y2.length none y2 le_rfl
  have h4b : NoBB none y4 := by
    rw [hy4, runScan]; exact scan_ipcBare_noBB y3.length none y3 le_rfl
  have h4c : NoLWC none y4 := by
    rw [hy4, runScan]; exact scan_ipcBare_pres_noLWC y3.length none y3 h3
  have hs4 : SafeIpc none y4 := safe_of_noLWC_noBB h4c h4b
  have hs5 : SafeIpc none y5 := by
    rw [hy5, runScan]; exact scan_spaceRun_pres_safe y4.length none y4 hs4
  have hs6 : SafeIpc none y6 := by
    rw [hy6, runScan]; exact scan_nlRun_pres_safe y5.length none y5 hs5
  have hd5 : NoDbl y5 := by
    rw [hy5, runScan]; exact scan_spaceRun_noDbl y4.length none y4 le_rfl
  have hd6 : NoDbl y6 := by
    rw [hy6, runScan]; exact scan_nlRun_pres_noDbl y5.length none y5 hd5
  have ht6 : NoTri y6 := by
    rw [hy6, runScan]; exact scan_nlRun_noTri y5.length none y5 le_rfl
  have hsL : SafeIpc none (trimLeadL y6) := by
    rw [trimLeadL]
    exact occ_dropWhile_nonword isWsChar (fun x hx => ws_not_word hx)
      (by rfl) hs6 none (by rfl)
  have hsT : SafeIpc none t := by rw [ht, trimL]; exact safe_trimTrail hsL
  have hdT : NoDbl t := by
    rw [ht, trimL]; exact noDbl_trimTrail (noDbl_dropWhile isWsChar hd6)
  have htT : NoTri t := by
    rw [ht, trimL]; exact noTri_trimTrail (noTri_dropWhile isWsChar ht6)
  have e1 : runScan ipcParenM none t = t := by
    rw [runScan]
    exact scan_id_of_nomatch SafeIpc (fun p a l h => occ_tail h)
      ipcParenM_none_safe t.length none t hsT
  have e2 : runScan ipcSectionM none t = t := by
    rw [runScan]
    exact scan_id_of_nomatch SafeIpc (fun p a l h => occ_tail h)
      ipcSectionM_none_safe t.length none t hsT
  have e3 : runScan ipcIdM none t = t := by
    rw [runScan]
    exact scan_id_of_nomatch SafeIpc (fun p a l h => occ_tail h)
      ipcIdM_none_safe t.length none t hsT
  have e4 : runScan ipcBareM none t = t := by
    rw [runScan]
    exact scan_id_of_nomatch SafeIpc (fun p a l h => occ_tail h)
      ipcBareM_none_safe t.length none t hsT
  have e5 : runScan spaceRunM none t = t := by
    rw [runScan]
    exact scan_id_of_nomatch (fun _ l => NoDbl l) (fun p a l h => noDbl_tail h)
      spaceRunM_none_noDbl t.length none t hdT
  have e6 : runScan nlRunM none t = t := by
    rw [runScan]
    exact scan_id_of_nomatch (fun _ l => NoTri l) (fun p a l h => noTri_tail h)
      nlRunM_none_noTri t.length none t htT
  rw [e1, e2, e3, e4, e5, e6, ht, trimL_idem]

/-- C7: the Response Sanitizer is idempotent — for every input string,
applying stripIpcMentions twice yields the same output as applying it
once. -/
theorem c7_sanitizer_idempotent (s : String) :
    stripIpcMentions (stripIpcMentions s) = stripIpcMentions s :=
  congrArg String.mk (stripIpcMentionsL_idem s.data)

end CrimeIpcApp
